import Mathlib

/-!
# Verification of Adaptive-Block-Sort

Shallow embedding of the two sorting routines of the repository
(src/abs.py: adaptive_block_sort, src/oabs.py: optimized_adaptive_block_sort)
over Lean lists of integers, together with proofs and refutations of the
specification claims.

Python lists are modelled as List Int.  Every index read or write performed by
the Python code is modelled by a checked access returning Option, so a model
function returns some _ exactly when the Python code performs no out-of-bounds
access; loops whose trip count is data dependent take an explicit fuel
argument that is provably sufficient (initialised by the callers with a bound
derived from the loop structure), keeping every definition structurally
recursive and hence computable by the kernel.
-/

namespace ABS

/-- Checked list update: models a Python write arr[i] = x (for 0 <= i). -/
def listSet? (l : List Int) (i : Nat) (x : Int) : Option (List Int) :=
  if i < l.length then some (l.set i x) else none

/-- Checked read with Python index semantics: a negative index i reads
position len + i (Python arr[i] for i < 0), out of range is an error. -/
def pyGet (l : List Int) (i : Int) : Option Int :=
  if 0 ≤ i then l.get? i.toNat
  else if (-i).toNat ≤ l.length then l.get? (l.length - (-i).toNat) else none

/-- Model of Python int(math.sqrt(n)): the integer square root, i.e. the
largest k with k * k ≤ n.  (math.sqrt is correctly rounded, so for every list
length reachable in practice, int(math.sqrt(n)) is exactly the floor of the
real square root.)  Implemented as an executable linear scan so that concrete
instances evaluate inside the kernel. -/
def isqrt (n : Nat) : Nat :=
  (((List.range (n + 1)).filter fun k => k * k ≤ n).getLastD 0)

/-- The inner while loop of the insertion sorts (src/abs.py lines 18-21,
src/oabs.py lines 36-39 and, with lower bound 0, lines 90-93):
while k ≥ i and arr[k] > key: arr[k+1] = arr[k]; k -= 1, followed by
arr[k+1] = key.  The loop variable is recast as m with k = i + m - 1, so that
m = 0 is the state k = i - 1 (possibly -1) where only the final write
arr[k+1] = arr[i] remains. -/
def shiftIns (arr : List Int) (i : Nat) (key : Int) : Nat → Option (List Int)
  | 0 => listSet? arr i key
  | m + 1 =>
    match arr.get? (i + m) with
    | none => none
    | some a =>
      if key < a then
        match listSet? arr (i + m + 1) a with
        | some arr2 => shiftIns arr2 i key m
        | none => none
      else listSet? arr (i + m + 1) key

/-- One iteration of the insertion-sort for loop: key = arr[j] followed by the
shifting while loop (k starts at j - 1, so m starts at j - i). -/
def insertAt (arr : List Int) (i j : Nat) : Option (List Int) :=
  match arr.get? j with
  | none => none
  | some key => shiftIns arr i key (j - i)

/-- for j in range(i + 1, stop): insertion step (src/abs.py lines 15-21). -/
def sortBlock (arr : List Int) (i stop : Nat) : Option (List Int) :=
  (List.range' (i + 1) (stop - (i + 1))).foldlM (fun a j => insertAt a i j) arr

/-- Step 1 of both sorts: for i in range(0, n, block_size) sort the block
[i, min(i + block_size, n)) by insertion sort.  range(0, n, s) has
ceil(n / s) elements for s ≥ 1 (both callers pass block_size ≥ 8). -/
def blockPass (arr : List Int) (bs : Nat) : Option (List Int) :=
  (List.range' 0 ((arr.length + bs - 1) / bs) bs).foldlM
    (fun a i => sortBlock a i (min (i + bs) arr.length)) arr

/-- The inner scan of run detection (src/abs.py line 28, src/oabs.py line 48):
while i < n - 1 and arr[i] <= arr[i+1]: i += 1; returns the final i.  The
first fuel argument bounds the number of iterations (callers pass the list
length, which suffices since i < n - 1 throughout); exhausted fuel yields
none, which is proved unreachable. -/
def runEnd (arr : List Int) : Nat → Nat → Option Nat
  | 0, _ => none
  | fuel + 1, i =>
    if i + 1 < arr.length then
      match arr.get? i, arr.get? (i + 1) with
      | some a, some b => if a ≤ b then runEnd arr fuel (i + 1) else some i
      | _, _ => none
    else some i

/-- Step 2 of both sorts (src/abs.py lines 24-31, src/oabs.py lines 43-51):
while i < n: start = i; (inner scan to e); runs.append((start, e + 1));
i = e + 1.  Fuel bounds the number of detected runs (callers pass
length + 1). -/
def detectRuns (arr : List Int) : Nat → Nat → Option (List (Nat × Nat))
  | 0, _ => none
  | fuel + 1, i =>
    if i < arr.length then
      match runEnd arr arr.length i with
      | none => none
      | some e =>
        match detectRuns arr fuel (e + 1) with
        | none => none
        | some rest => some ((i, e + 1) :: rest)
    else some []

/-- Lexicographic strict order on (value, block_id) pairs: Python tuple
comparison, which heapq uses to order heap entries. -/
def pairLt (x y : Int × Nat) : Bool :=
  x.1 < y.1 || (x.1 = y.1 && x.2 < y.2)

/-- Model of the heapq min-heap: the heap is its list of entries;
heapq.heappop returns the least entry under tuple comparison (here: the
leftmost least entry, which is the unique least whenever no two entries are
equal pairs — in both sorts entries carry distinct block ids, so the pop is
exactly heapq's).  Returns the popped entry and the remaining entries. -/
def popMin : List (Int × Nat) → Option ((Int × Nat) × List (Int × Nat))
  | [] => none
  | x :: xs =>
    match popMin xs with
    | none => some (x, [])
    | some (m, rest) => if pairLt m x then some (m, x :: rest) else some (x, xs)

/-- heapq.heappush: adds an entry to the heap (entry order inside the heap is
irrelevant to popMin up to ties, which do not occur). -/
def heapPush (x : Int × Nat) (h : List (Int × Nat)) : List (Int × Nat) :=
  x :: h

/-- One iteration of the heap-initialisation loop: if
block_indices[block_id] < block_ends[block_id] then push
(arr[block_indices[block_id]], block_id) and advance the cursor. -/
def initStep (arr : List Int) (ends : List Nat)
    (s : List Nat × List (Int × Nat)) (b : Nat) :
    Option (List Nat × List (Int × Nat)) :=
  match s.1.get? b, ends.get? b with
  | some c, some e =>
    if c < e then
      match arr.get? c with
      | some x => some (s.1.set b (c + 1), heapPush (x, b) s.2)
      | none => none
    else some s
  | _, _ => none

/-- Heap initialisation, common to both sorts (src/abs.py lines 45-48,
src/oabs.py lines 65-68): for block_id in range(num_blocks): initStep.
State: (block_indices, heap). -/
def initHeap (arr : List Int) (ends : List Nat) (k : Nat)
    (cursors : List Nat) : Option (List Nat × List (Int × Nat)) :=
  (List.range k).foldlM (initStep arr ends) (cursors, [])

/-- The merge loop of src/abs.py (lines 51-58): pop the minimum, append its
value to result, and if the popped run has unread elements push the next one.
arr is only read.  Fuel bounds the iteration count (callers pass
length + 1). -/
def absMergeLoop (arr : List Int) (ends : List Nat) :
    Nat → List Nat → List (Int × Nat) → List Int → Option (List Int)
  | 0, _, _, _ => none
  | fuel + 1, cursors, heap, result =>
    match popMin heap with
    | none => some result
    | some ((v, b), heap2) =>
      match cursors.get? b, ends.get? b with
      | some c, some e =>
        if c < e then
          match arr.get? c with
          | some x =>
            absMergeLoop arr ends fuel (cursors.set b (c + 1))
              (heapPush (x, b) heap2) (result ++ [v])
          | none => none
        else absMergeLoop arr ends fuel cursors heap2 (result ++ [v])
      | _, _ => none

/-- Steps 3 of src/abs.py (lines 37-58): cursor/end extraction, heap
initialisation and the merge loop producing the result list. -/
def absMergePhase (arr : List Int) (runs : List (Nat × Nat)) :
    Option (List Int) :=
  match initHeap arr (runs.map Prod.snd) runs.length (runs.map Prod.fst) with
  | none => none
  | some (cursors, heap) =>
    absMergeLoop arr (runs.map Prod.snd) (arr.length + 1) cursors heap []

/-- One iteration of the copy-back loop: arr[i] = result[i]. -/
def copyStep (result : List Int) (a : List Int) (i : Nat) : Option (List Int) :=
  match result.get? i with
  | some v => listSet? a i v
  | none => none

/-- The copy-back loop of src/abs.py (lines 61-62):
for i in range(n): arr[i] = result[i]. -/
def copyBack (arr result : List Int) : Option (List Int) :=
  (List.range arr.length).foldlM (copyStep result) arr

/-- Block size of src/oabs.py lines 22-25: cache_line_bytes = 64,
element_size = 8, elements_per_cache_line = 64 // 8 = 8, and
block_size = max(8, int(math.sqrt(n) / 2) * 2).  Since math.sqrt(n) / 2 is an
exact halving of the correctly rounded square root, int(...) is
floor(sqrt(n)) / 2 in integer arithmetic. -/
def oabsBlockSize (n : Nat) : Nat :=
  max (64 / 8) (isqrt n / 2 * 2)

/-- Block size of src/abs.py line 10: max(32, int(math.sqrt(n))). -/
def absBlockSize (n : Nat) : Nat :=
  max 32 (isqrt n)

/-- The block size formula as the specification words it:
max(min_block, floor(sqrt(n))). -/
def specBlockSize (minBlock n : Nat) : Nat :=
  max minBlock (isqrt n)

/-- src/abs.py lines 4-64: the whole adaptive_block_sort function.  Returns
none iff the Python code would raise an out-of-bounds error (it never does,
see the theorems below). -/
def adaptive_block_sort (arr : List Int) : Option (List Int) :=
  if arr.length ≤ 1 then some arr
  else
    let n := arr.length
    let block_size := absBlockSize n
    match blockPass arr block_size with
    | none => none
    | some arr1 =>
      match detectRuns arr1 (n + 1) 0 with
      | none => none
      | some runs =>
        if runs.length = 1 ∧ runs.getD 0 (0, 0) = (0, n) then some arr1
        else
          match absMergePhase arr1 runs with
          | none => none
          | some result => copyBack arr1 result

/-- The in-place merge loop of src/oabs.py (lines 72-81): pop the minimum,
write it at arr[write_index], advance write_index, and if the popped run has
unread elements push the next one — read from the array being overwritten.
Returns the final array together with write_index. -/
def oabsMergeLoop (ends : List Nat) :
    Nat → List Int → Nat → List Nat → List (Int × Nat) →
    Option (List Int × Nat)
  | 0, _, _, _, _ => none
  | fuel + 1, arr, w, cursors, heap =>
    match popMin heap with
    | none => some (arr, w)
    | some ((v, b), heap2) =>
      match listSet? arr w v with
      | none => none
      | some arr2 =>
        match cursors.get? b, ends.get? b with
        | some c, some e =>
          if c < e then
            match arr2.get? c with
            | some x =>
              oabsMergeLoop ends fuel arr2 (w + 1) (cursors.set b (c + 1))
                (heapPush (x, b) heap2)
            | none => none
          else oabsMergeLoop ends fuel arr2 (w + 1) cursors heap2
        | _, _ => none

/-- Steps 3-4 of src/oabs.py (lines 57-81): cursor/end extraction, heap
initialisation and the in-place merge loop. -/
def oabsMergePhase (arr : List Int) (runs : List (Nat × Nat)) :
    Option (List Int × Nat) :=
  match initHeap arr (runs.map Prod.snd) runs.length (runs.map Prod.fst) with
  | none => none
  | some (cursors, heap) =>
    oabsMergeLoop (runs.map Prod.snd) (arr.length + 1) arr 0 cursors heap

/-- Step 5 of src/oabs.py (lines 83-93): for i in range(write_index, n):
if arr[i] < arr[i-1]: insert arr[i] backwards into position (the while loop
with lower bound 0 is shiftIns with i = 0 and initial k = i - 1, i.e.
m = i).  arr[i-1] is read with Python index semantics (i = 0 would read
arr[-1], the last element). -/
def cleanupPass (arr : List Int) (w : Nat) : Option (List Int) :=
  (List.range' w (arr.length - w)).foldlM
    (fun a i =>
      match a.get? i, pyGet a ((i : Int) - 1) with
      | some cur, some prev =>
        if cur < prev then shiftIns a 0 cur i else some a
      | _, _ => none)
    arr

/-- src/oabs.py lines 4-95: the whole optimized_adaptive_block_sort function.
Returns none iff the Python code would raise an out-of-bounds error (it never
does, see the theorems below). -/
def optimized_adaptive_block_sort (arr : List Int) : Option (List Int) :=
  if arr.length ≤ 1 then some arr
  else
    let n := arr.length
    let block_size := oabsBlockSize n
    match blockPass arr block_size with
    | none => none
    | some arr1 =>
      match detectRuns arr1 (n + 1) 0 with
      | none => none
      | some runs =>
        if runs.length = 1 ∧ runs.getD 0 (0, 0) = (0, n) then some arr1
        else
          match oabsMergePhase arr1 runs with
          | none => none
          | some (arr2, w) => cleanupPass arr2 w

/-- The reference postcondition, exactly as the specification states it: for
all i in [0, n - 1), result[i] <= result[i+1].  Written as an executable
Boolean scan over adjacent pairs. -/
def nondecr : List Int → Bool
  | [] => true
  | [_] => true
  | a :: b :: t => a ≤ b && nondecr (b :: t)

/-! ## Basic helper lemmas -/

theorem listSet?_eq_some_iff {l l2 : List Int} {i : Nat} {x : Int} :
    listSet? l i x = some l2 ↔ i < l.length ∧ l2 = l.set i x := by
  unfold listSet?
  split
  · simp_all [eq_comm]
  · simp_all

theorem listSet?_some {l : List Int} {i : Nat} (h : i < l.length) (x : Int) :
    listSet? l i x = some (l.set i x) := by
  simp [listSet?, h]

theorem get?_eq_some_getD {α : Type} {l : List α} {i : Nat} (h : i < l.length)
    (d : α) : l.get? i = some (l.getD i d) := by
  rw [List.get?_eq_getElem?, List.getElem?_eq_getElem h, List.getD_eq_getElem l d h]

theorem getD_set_self {l : List Int} {i : Nat} (h : i < l.length) (x d : Int) :
    (l.set i x).getD i d = x := by
  rw [List.getD_eq_getElem?_getD, List.getElem?_set_self h]
  rfl

theorem getD_set_ne {l : List Int} {i j : Nat} (h : i ≠ j) (x d : Int) :
    (l.set i x).getD j d = l.getD j d := by
  rw [List.getD_eq_getElem?_getD, List.getElem?_set_ne h, ← List.getD_eq_getElem?_getD]

theorem natGetD_set_self {l : List Nat} {i : Nat} (h : i < l.length) (x d : Nat) :
    (l.set i x).getD i d = x := by
  rw [List.getD_eq_getElem?_getD, List.getElem?_set_self h]
  rfl

theorem natGetD_set_ne {l : List Nat} {i j : Nat} (h : i ≠ j) (x d : Nat) :
    (l.set i x).getD j d = l.getD j d := by
  rw [List.getD_eq_getElem?_getD, List.getElem?_set_ne h, ← List.getD_eq_getElem?_getD]

theorem take_set_of_le (l : List Int) {n m : Nat} (a : Int) (h : n ≤ m) :
    List.take n (l.set m a) = List.take n l := by
  apply List.ext_getElem?
  intro j
  by_cases hj : j < n
  · simp [List.getElem?_take, hj, List.getElem?_set_ne (show m ≠ j by omega)]
  · simp [List.getElem?_take, hj]

theorem drop_eq_getD_cons {l : List Int} {i : Nat} (h : i < l.length) (d : Int) :
    l.drop i = l.getD i d :: l.drop (i + 1) := by
  rw [List.getD_eq_getElem l d h]
  exact List.drop_eq_getElem_cons h

/-- Setting position p+1 to the value at position p, then erasing position p,
is erasing position p+1: the element at p survives in slot p+1. -/
theorem eraseIdx_set_shift (l : List Int) {p : Nat} (h : p + 1 < l.length) :
    (l.set (p + 1) (l.getD p 0)).eraseIdx p = l.eraseIdx (p + 1) := by
  rw [List.eraseIdx_eq_take_drop_succ, List.eraseIdx_eq_take_drop_succ,
    take_set_of_le l _ (by omega), List.drop_set]
  have hp : p < l.length := by omega
  rw [if_neg (by omega), drop_eq_getD_cons h 0, Nat.sub_self,
    List.set_cons_zero, List.getD_eq_getElem l 0 hp]
  rw [List.take_succ, List.getElem?_eq_getElem hp, Option.toList_some,
    List.append_assoc, List.singleton_append]

theorem set_perm_cons_eraseIdx (l : List Int) {i : Nat} (h : i < l.length)
    (x : Int) : (l.set i x).Perm (x :: l.eraseIdx i) := by
  rw [List.set_eq_take_append_cons_drop, if_pos h, List.eraseIdx_eq_take_drop_succ]
  exact List.perm_middle

theorem getD_cons_eraseIdx_perm (l : List Int) {i : Nat} (h : i < l.length) :
    (l.getD i 0 :: l.eraseIdx i).Perm l := by
  rw [List.eraseIdx_eq_take_drop_succ]
  refine List.Perm.trans List.perm_middle.symm ?_
  rw [← drop_eq_getD_cons h 0, List.take_append_drop]

theorem nondecr_iff_chain : ∀ l : List Int,
    nondecr l = true ↔ List.Chain' (· ≤ ·) l
  | [] => by simp [nondecr]
  | [a] => by simp [nondecr]
  | a :: b :: t => by
    rw [List.chain'_cons, ← nondecr_iff_chain (b :: t)]
    simp [nondecr, Bool.and_eq_true, decide_eq_true_iff]

theorem chain'_getD {l : List Int} (h : List.Chain' (· ≤ ·) l) {j : Nat}
    (hj : j + 1 < l.length) : l.getD j 0 ≤ l.getD (j + 1) 0 := by
  rw [List.getD_eq_getElem l 0 (by omega), List.getD_eq_getElem l 0 hj]
  exact List.chain'_iff_get.mp h j (by omega)

theorem chain'_of_getD {l : List Int}
    (h : ∀ j, j + 1 < l.length → l.getD j 0 ≤ l.getD (j + 1) 0) :
    List.Chain' (· ≤ ·) l := by
  rw [List.chain'_iff_get]
  intro i hi
  have := h i (by omega)
  rwa [List.getD_eq_getElem l 0 (by omega), List.getD_eq_getElem l 0 (by omega)] at this

/-- Fold a checked state transformer over a list: if every step succeeds and
returns a permutation of its input preserving an invariant, so does the
whole fold. -/
theorem foldlM_perm_inv {α : Type} (f : List Int → α → Option (List Int))
    (P : List Int → Prop) :
    ∀ (l : List α) (arr : List Int),
    (∀ a x, x ∈ l → P a → ∃ a2, f a x = some a2 ∧ P a2 ∧ a2.Perm a) →
    P arr →
    ∃ arr2, l.foldlM f arr = some arr2 ∧ P arr2 ∧ arr2.Perm arr := by
  intro l
  induction l with
  | nil =>
    intro arr _ hP
    exact ⟨arr, rfl, hP, List.Perm.refl arr⟩
  | cons x t ih =>
    intro arr hstep hP
    obtain ⟨a2, hf, hP2, hperm⟩ := hstep arr x (by simp) hP
    obtain ⟨a3, hf3, hP3, hperm3⟩ :=
      ih a2 (fun a y hy hPa => hstep a y (by simp [hy]) hPa) hP2
    exact ⟨a3, by simp [List.foldlM_cons, hf, hf3], hP3, hperm3.trans hperm⟩

/-- If every step of a checked fold leaves the state unchanged, the fold
returns the initial state. -/
theorem foldlM_id {α : Type} (f : List Int → α → Option (List Int))
    (arr : List Int) :
    ∀ l : List α, (∀ x ∈ l, f arr x = some arr) →
    l.foldlM f arr = some arr := by
  intro l
  induction l with
  | nil => intro _; rfl
  | cons x t ih =>
    intro h
    simp only [List.foldlM_cons, h x (by simp), Option.bind_eq_bind,
      Option.some_bind]
    exact ih fun y hy => h y (by simp [hy])

/-! ## Block insertion-sort phase -/

/-- The shifting loop is total when its write window lies inside the list,
preserves the length, and its result is, up to permutation, the list with
the slot i + m (holding the key being inserted) replaced by the key. -/
theorem shiftIns_spec (key : Int) :
    ∀ (m : Nat) (arr : List Int) (i : Nat), i + m < arr.length →
    ∃ arr2, shiftIns arr i key m = some arr2 ∧
      arr2.length = arr.length ∧
      arr2.Perm (key :: arr.eraseIdx (i + m)) := by
  intro m
  induction m with
  | zero =>
    intro arr i h
    rw [Nat.add_zero] at h
    refine ⟨arr.set i key, ?_, List.length_set arr i key, ?_⟩
    · simp [shiftIns, listSet?_some h]
    · simpa using set_perm_cons_eraseIdx arr h key
  | succ m ih =>
    intro arr i h
    have him : i + m < arr.length := by omega
    have him1 : i + m + 1 < arr.length := by omega
    by_cases hk : key < arr.getD (i + m) 0
    · obtain ⟨arr2, h1, h2, h3⟩ :=
        ih (arr.set (i + m + 1) (arr.getD (i + m) 0)) i
          (by rw [List.length_set]; omega)
      refine ⟨arr2, ?_, by rw [h2, List.length_set], ?_⟩
      · simp only [shiftIns, get?_eq_some_getD him 0, if_pos hk,
          listSet?_some him1]
        exact h1
      · rw [eraseIdx_set_shift arr him1] at h3
        exact h3
    · refine ⟨arr.set (i + m + 1) key, ?_, List.length_set _ _ _, ?_⟩
      · simp only [shiftIns, get?_eq_some_getD him 0, if_neg hk,
          listSet?_some him1]
      · exact set_perm_cons_eraseIdx arr him1 key

/-- One insertion step is total, preserves the length, and permutes. -/
theorem insertAt_spec {arr : List Int} {i j : Nat} (hij : i ≤ j)
    (hj : j < arr.length) :
    ∃ arr2, insertAt arr i j = some arr2 ∧
      arr2.length = arr.length ∧ arr2.Perm arr := by
  obtain ⟨arr2, h1, h2, h3⟩ :=
    shiftIns_spec (arr.getD j 0) (j - i) arr i (by omega)
  rw [show i + (j - i) = j by omega] at h3
  refine ⟨arr2, ?_, h2, ?_⟩
  · simp only [insertAt, get?_eq_some_getD hj 0]
    exact h1
  · exact h3.trans (getD_cons_eraseIdx_perm arr hj)

/-- The inner for loop over one block is total, preserves the length, and
permutes. -/
theorem sortBlock_spec (arr : List Int) (i stop : Nat)
    (hstop : stop ≤ arr.length) :
    ∃ arr2, sortBlock arr i stop = some arr2 ∧
      arr2.length = arr.length ∧ arr2.Perm arr := by
  obtain ⟨arr2, h1, h2, h3⟩ :=
    foldlM_perm_inv (fun a j => insertAt a i j) (fun a => a.length = arr.length)
      (List.range' (i + 1) (stop - (i + 1))) arr
      (by
        intro a j hjmem hlen
        rw [List.mem_range'_1] at hjmem
        obtain ⟨arr3, g1, g2, g3⟩ :=
          insertAt_spec (i := i) (j := j) (by omega)
            (show j < a.length by omega)
        exact ⟨arr3, g1, g2.trans hlen, g3⟩)
      rfl
  exact ⟨arr2, h1, h2, h3⟩

/-- Step 1 (the whole block pass) is total, preserves the length, and
returns a permutation of its input — for any block size. -/
theorem blockPass_spec (arr : List Int) (bs : Nat) :
    ∃ arr2, blockPass arr bs = some arr2 ∧
      arr2.length = arr.length ∧ arr2.Perm arr := by
  obtain ⟨arr2, h1, h2, h3⟩ :=
    foldlM_perm_inv (fun a i => sortBlock a i (min (i + bs) arr.length))
      (fun a => a.length = arr.length)
      (List.range' 0 ((arr.length + bs - 1) / bs) bs) arr
      (by
        intro a i _ hlen
        obtain ⟨arr3, g1, g2, g3⟩ :=
          sortBlock_spec a i (min (i + bs) arr.length) (by omega)
        exact ⟨arr3, g1, g2.trans hlen, g3⟩)
      rfl
  exact ⟨arr2, h1, h2, h3⟩

/-- Unfolding equation for the exit case of the shifting loop. -/
theorem shiftIns_succ_not_lt {arr : List Int} {i m : Nat} {key : Int}
    (him : i + m < arr.length) (hk : ¬ key < arr.getD (i + m) 0) :
    shiftIns arr i key (m + 1) = listSet? arr (i + m + 1) key := by
  simp only [shiftIns, get?_eq_some_getD him 0, if_neg hk]

theorem set_getD_self {l : List Int} {n : Nat} (h : n < l.length) (d : Int) :
    l.set n (l.getD n d) = l := by
  apply List.ext_getElem?
  intro j
  by_cases hj : n = j
  · subst hj
    rw [List.getElem?_set_self h, List.getD_eq_getElem l d h,
      List.getElem?_eq_getElem h]
  · rw [List.getElem?_set_ne hj]

/-- On an already non-decreasing list the shifting loop writes the key back
into its own slot and changes nothing (the very first comparison fails). -/
theorem shiftIns_sorted_id {arr : List Int} (hs : List.Chain' (· ≤ ·) arr)
    {i m : Nat} (hm : 1 ≤ m) (h : i + m < arr.length) :
    shiftIns arr i (arr.getD (i + m) 0) m = some arr := by
  obtain ⟨m, rfl⟩ : ∃ mm, m = mm + 1 := ⟨m - 1, by omega⟩
  have him : i + m < arr.length := by omega
  have him1 : i + m + 1 < arr.length := h
  have hle : arr.getD (i + m) 0 ≤ arr.getD (i + m + 1) 0 :=
    chain'_getD hs him1
  have hkey : arr.getD (i + (m + 1)) 0 = arr.getD (i + m + 1) 0 := rfl
  rw [hkey, shiftIns_succ_not_lt him (by omega),
    listSet?_some him1, set_getD_self him1 0]

/-- On an already non-decreasing list every insertion step is the
identity. -/
theorem insertAt_sorted_id {arr : List Int} (hs : List.Chain' (· ≤ ·) arr)
    {i j : Nat} (hij : i < j) (hj : j < arr.length) :
    insertAt arr i j = some arr := by
  have := shiftIns_sorted_id hs (i := i) (m := j - i) (by omega) (by omega)
  rw [show i + (j - i) = j by omega] at this
  simp only [insertAt, get?_eq_some_getD hj 0]
  exact this

/-- On an already non-decreasing list the whole block pass is the
identity, for any block size. -/
theorem blockPass_sorted_id {arr : List Int} (hs : List.Chain' (· ≤ ·) arr)
    (bs : Nat) : blockPass arr bs = some arr := by
  apply foldlM_id
  intro i _
  apply foldlM_id
  intro j hjmem
  rw [List.mem_range'_1] at hjmem
  exact insertAt_sorted_id hs (by omega) (by omega)

/-! ## Run detection -/

theorem runEnd_spec (arr : List Int) :
    ∀ (fuel i : Nat), arr.length ≤ fuel + i → i < arr.length →
    ∃ e, runEnd arr fuel i = some e ∧ i ≤ e ∧ e < arr.length ∧
      ∀ j, i ≤ j → j < e → arr.getD j 0 ≤ arr.getD (j + 1) 0 := by
  intro fuel
  induction fuel with
  | zero =>
    intro i hf hi
    omega
  | succ fuel ih =>
    intro i hf hi
    by_cases hcond : i + 1 < arr.length
    · have hgi := get?_eq_some_getD hi (0 : Int)
      have hgi1 := get?_eq_some_getD hcond (0 : Int)
      by_cases hle : arr.getD i 0 ≤ arr.getD (i + 1) 0
      · obtain ⟨e, h1, h2, h3, h4⟩ := ih (i + 1) (by omega) hcond
        refine ⟨e, ?_, by omega, h3, ?_⟩
        · simp only [runEnd, if_pos hcond, hgi, hgi1, if_pos hle]
          exact h1
        · intro j hj1 hj2
          rcases Nat.eq_or_lt_of_le hj1 with heq | hlt
          · rw [← heq]
            exact hle
          · exact h4 j (by omega) hj2
      · refine ⟨i, ?_, Nat.le_refl i, hi, by intro j hj1 hj2; omega⟩
        simp only [runEnd, if_pos hcond, hgi, hgi1, if_neg hle]
    · refine ⟨i, ?_, Nat.le_refl i, hi, by intro j hj1 hj2; omega⟩
      simp only [runEnd, if_neg hcond]

theorem runEnd_sorted (arr : List Int) (hs : List.Chain' (· ≤ ·) arr) :
    ∀ (fuel i : Nat), arr.length ≤ fuel + i → i < arr.length →
    runEnd arr fuel i = some (arr.length - 1) := by
  intro fuel
  induction fuel with
  | zero =>
    intro i hf hi
    omega
  | succ fuel ih =>
    intro i hf hi
    by_cases hcond : i + 1 < arr.length
    · have hle := chain'_getD hs hcond
      simp only [runEnd, if_pos hcond, get?_eq_some_getD hi (0 : Int),
        get?_eq_some_getD hcond (0 : Int), if_pos hle]
      exact ih (i + 1) (by omega) hcond
    · have hieq : i = arr.length - 1 := by omega
      subst hieq
      simp only [runEnd, if_neg hcond]

theorem getLastD_of_ne_nil {l : List (Nat × Nat)} (h : l ≠ [])
    (d1 d2 : Nat × Nat) : l.getLastD d1 = l.getLastD d2 := by
  cases l with
  | nil => exact absurd rfl h
  | cons a t => rw [List.getLastD_cons, List.getLastD_cons]

theorem seg_append_drop (arr : List Int) {a b : Nat} (hab : a ≤ b) :
    (arr.drop a).take (b - a) ++ arr.drop b = arr.drop a := by
  have hd : arr.drop b = (arr.drop a).drop (b - a) := by
    rw [List.drop_drop, show a + (b - a) = b by omega]
  rw [hd, List.take_append_drop]

/-- Full specification of the run-detection scan from position i: it
succeeds, the produced runs tile the range from i to the length (consecutive
ends equal next starts), each run is a non-empty, in-bounds, non-decreasing
segment, every position from i on is covered, and the concatenation of the
run segments is the suffix of the array from i. -/
theorem detectRuns_spec (arr : List Int) :
    ∀ (fuel i : Nat), arr.length + 1 ≤ fuel + i → i ≤ arr.length →
    ∃ rs, detectRuns arr fuel i = some rs ∧
      (arr.length ≤ i → rs = []) ∧
      (i < arr.length → rs ≠ [] ∧ (rs.headD (0, 0)).1 = i ∧
        (rs.getLastD (0, 0)).2 = arr.length) ∧
      List.Chain' (fun r s => r.2 = s.1) rs ∧
      (∀ r ∈ rs, i ≤ r.1 ∧ r.1 < r.2 ∧ r.2 ≤ arr.length ∧
        ∀ j, r.1 ≤ j → j + 1 < r.2 → arr.getD j 0 ≤ arr.getD (j + 1) 0) ∧
      (∀ m, i ≤ m → m < arr.length → ∃ r ∈ rs, r.1 ≤ m ∧ m < r.2) ∧
      rs.flatMap (fun r => (arr.drop r.1).take (r.2 - r.1)) = arr.drop i := by
  intro fuel
  induction fuel with
  | zero =>
    intro i hf hi
    omega
  | succ fuel ih =>
    intro i hf hi
    by_cases hin : i < arr.length
    · obtain ⟨e, hE, hE1, hE2, hE3⟩ := runEnd_spec arr arr.length i (by omega) hin
      obtain ⟨rest, hR, hRnil, hRne, hRchain, hRruns, hRcov, hRflat⟩ :=
        ih (e + 1) (by omega) (by omega)
      refine ⟨(i, e + 1) :: rest, ?_, by intro hcon; omega, ?_, ?_, ?_, ?_, ?_⟩
      · simp only [detectRuns, if_pos hin, hE, hR]
      · intro _
        refine ⟨by simp, by simp, ?_⟩
        by_cases hend : e + 1 < arr.length
        · have hne := (hRne hend).1
          have hlast := (hRne hend).2.2
          rw [List.getLastD_cons, getLastD_of_ne_nil hne (i, e + 1) (0, 0)]
          exact hlast
        · have hrest : rest = [] := hRnil (by omega)
          subst hrest
          simp only [List.getLastD_cons, List.getLastD_nil]
          omega
      · rw [List.chain'_cons']
        refine ⟨?_, hRchain⟩
        intro y hy
        by_cases hend : e + 1 < arr.length
        · have hne := hRne hend
          cases rest with
          | nil => exact absurd rfl hne.1
          | cons y0 t2 =>
            have : y = y0 := by
              simpa using hy.symm
            rw [this]
            have := hne.2.1
            simpa using this.symm
        · have hrest : rest = [] := hRnil (by omega)
          subst hrest
          cases hy
      · intro r hr
        rcases List.mem_cons.mp hr with heq | hmem
        · subst heq
          refine ⟨Nat.le_refl i, by omega, by omega, ?_⟩
          intro j hj1 hj2
          exact hE3 j hj1 (by omega)
        · obtain ⟨g1, g2, g3, g4⟩ := hRruns r hmem
          exact ⟨by omega, g2, g3, g4⟩
      · intro m hm1 hm2
        by_cases hcase : m ≤ e
        · exact ⟨(i, e + 1), by simp, by simpa using hm1, by omega⟩
        · obtain ⟨r, hr1, hr2, hr3⟩ := hRcov m (by omega) hm2
          exact ⟨r, List.mem_cons_of_mem _ hr1, hr2, hr3⟩
      · rw [List.flatMap_cons, hRflat]
        exact seg_append_drop arr (by omega)
    · have hieq : i = arr.length := by omega
      refine ⟨[], ?_, fun _ => rfl, by omega, List.chain'_nil, by simp, by omega, ?_⟩
      · simp only [detectRuns, if_neg hin]
      · rw [List.flatMap_nil, Eq.comm, List.drop_eq_nil_iff]
        omega

/-- On an already non-decreasing list of length at least one, run detection
finds the single run (0, n). -/
theorem detectRuns_sorted (arr : List Int) (hs : List.Chain' (· ≤ ·) arr)
    (h1 : 1 ≤ arr.length) :
    detectRuns arr (arr.length + 1) 0 = some [(0, arr.length)] := by
  have hrE := runEnd_sorted arr hs arr.length 0 (by omega) (by omega)
  have h2 : arr.length - 1 + 1 = arr.length := by omega
  have h3 : detectRuns arr arr.length arr.length = some [] := by
    obtain ⟨f, hf⟩ : ∃ f, arr.length = f + 1 := ⟨arr.length - 1, by omega⟩
    rw [hf]
    have hlt : ¬ (f + 1 < arr.length) := by omega
    simp only [detectRuns, if_neg hlt]
  simp only [detectRuns, if_pos (by omega : 0 < arr.length), hrE, h2, h3]

/-- Runs whose consecutive ends meet the next starts, each non-empty, are
pairwise disjoint (earlier runs end no later than later runs start). -/
theorem runs_pairwise : ∀ rs : List (Nat × Nat),
    List.Chain' (fun r s => r.2 = s.1) rs → (∀ r ∈ rs, r.1 < r.2) →
    List.Pairwise (fun r s => r.2 ≤ s.1) rs := by
  intro rs
  induction rs with
  | nil =>
    intro _ _
    exact List.Pairwise.nil
  | cons x t ih =>
    intro hc hw
    rw [List.chain'_cons'] at hc
    have hpt := ih hc.2 fun r hr => hw r (List.mem_cons_of_mem x hr)
    refine List.Pairwise.cons ?_ hpt
    intro y hy
    cases t with
    | nil => cases hy
    | cons y0 t2 =>
      have hx : x.2 = y0.1 := hc.1 y0 rfl
      rcases List.mem_cons.mp hy with heq | hy2
      · subst heq
        omega
      · have h3 : y0.2 ≤ y.1 := (List.pairwise_cons.mp hpt).1 y hy2
        have h4 : y0.1 < y0.2 := hw y0 (by simp)
        omega

/-! ## Heap model -/

theorem pairLt_iff {x y : Int × Nat} :
    pairLt x y = true ↔ x.1 < y.1 ∨ (x.1 = y.1 ∧ x.2 < y.2) := by
  simp [pairLt, Bool.or_eq_true, Bool.and_eq_true, decide_eq_true_iff]

theorem popMin_eq_none_iff {h : List (Int × Nat)} : popMin h = none ↔ h = [] := by
  cases h with
  | nil => simp [popMin]
  | cons x xs =>
    simp only [popMin]
    cases hpm : popMin xs with
    | none => simp
    | some p =>
      obtain ⟨m, rest⟩ := p
      by_cases hlt : pairLt m x
      · simp [hlt]
      · simp [hlt]

/-- heappop returns an entry that is a least value in the heap, and the heap
contents are the popped entry plus the remainder. -/
theorem popMin_spec : ∀ (h : List (Int × Nat)) (m : Int × Nat)
    (rest : List (Int × Nat)), popMin h = some (m, rest) →
    h.Perm (m :: rest) ∧ ∀ y ∈ h, m.1 ≤ y.1 := by
  intro h
  induction h with
  | nil =>
    intro m rest hp
    cases hp
  | cons x xs ih =>
    intro m rest hp
    cases hpm : popMin xs with
    | none =>
      have hxs := popMin_eq_none_iff.mp hpm
      simp only [popMin, hpm, Option.some.injEq, Prod.mk.injEq] at hp
      obtain ⟨rfl, rfl⟩ := hp
      subst hxs
      refine ⟨List.Perm.refl _, ?_⟩
      intro y hy
      rw [List.mem_singleton] at hy
      subst hy
      exact le_refl _
    | some p =>
      obtain ⟨m0, r0⟩ := p
      obtain ⟨hper0, hmin0⟩ := ih m0 r0 hpm
      simp only [popMin, hpm] at hp
      by_cases hlt : pairLt m0 x
      · rw [if_pos hlt] at hp
        simp only [Option.some.injEq, Prod.mk.injEq] at hp
        obtain ⟨rfl, rfl⟩ := hp
        constructor
        · exact List.Perm.trans (hper0.cons x) (List.Perm.swap _ _ _)
        · intro y hy
          rcases List.mem_cons.mp hy with rfl | hy2
          · rcases pairLt_iff.mp hlt with hc | hc
            · omega
            · omega
          · exact hmin0 y hy2
      · rw [if_neg hlt] at hp
        simp only [Option.some.injEq, Prod.mk.injEq] at hp
        obtain ⟨rfl, rfl⟩ := hp
        constructor
        · exact List.Perm.refl _
        · intro y hy
          have hxm : x.1 ≤ m0.1 := by
            rcases lt_trichotomy x.1 m0.1 with hc | hc | hc
            · omega
            · omega
            · exact absurd (pairLt_iff.mpr (Or.inl hc)) (by simpa using hlt)
          rcases List.mem_cons.mp hy with rfl | hy2
          · exact le_refl _
          · exact le_trans hxm (hmin0 y hy2)

/-! ## Pointwise update lemmas for indexed sums and segment unions -/

theorem sum_map_update {b : Nat} (f g : Nat → Nat) :
    ∀ l : List Nat, b ∈ l → l.Nodup →
    (∀ a ∈ l, a ≠ b → f a = g a) → g b + 1 = f b →
    (l.map f).sum = (l.map g).sum + 1 := by
  intro l
  induction l with
  | nil =>
    intro hmem
    cases hmem
  | cons x t ih =>
    intro hmem hnd hfg hb
    rw [List.nodup_cons] at hnd
    rcases List.mem_cons.mp hmem with rfl | hbt
    · simp only [List.map_cons, List.sum_cons]
      have ht : t.map f = t.map g := by
        apply List.map_congr_left
        intro a ha
        exact hfg a (List.mem_cons_of_mem _ ha) fun hab => hnd.1 (hab ▸ ha)
      rw [ht]
      omega
    · simp only [List.map_cons, List.sum_cons]
      have hxb : x ≠ b := fun h => hnd.1 (h ▸ hbt)
      rw [hfg x (by simp) hxb]
      have := ih hbt hnd.2 fun a ha hab => hfg a (by simp [ha]) hab
      omega

theorem flatMap_congr_mem {α : Type} {f g : Nat → List α} :
    ∀ {t : List Nat}, (∀ a ∈ t, f a = g a) → t.flatMap f = t.flatMap g := by
  intro t
  induction t with
  | nil =>
    intro _
    rfl
  | cons a s ih =>
    intro h
    rw [List.flatMap_cons, List.flatMap_cons, h a (by simp),
      ih fun y hy => h y (by simp [hy])]

theorem flatMap_update {α : Type} {b : Nat} (f g : Nat → List α) (x : α) :
    ∀ l : List Nat, b ∈ l → l.Nodup →
    (∀ a ∈ l, a ≠ b → f a = g a) → f b = x :: g b →
    (l.flatMap f).Perm (x :: l.flatMap g) := by
  intro l
  induction l with
  | nil =>
    intro hmem
    cases hmem
  | cons y t ih =>
    intro hmem hnd hfg hb
    rw [List.nodup_cons] at hnd
    rcases List.mem_cons.mp hmem with rfl | hbt
    · have ht : t.flatMap f = t.flatMap g :=
        flatMap_congr_mem fun a ha => hfg a (by simp [ha]) fun hab => hnd.1 (hab ▸ ha)
      rw [List.flatMap_cons, List.flatMap_cons, hb, ht]
      exact List.Perm.refl _
    · rw [List.flatMap_cons, List.flatMap_cons]
      have hyb : y ≠ b := fun h => hnd.1 (h ▸ hbt)
      rw [hfg y (by simp) hyb]
      have hper := ih hbt hnd.2 (fun a ha hab => hfg a (by simp [ha]) hab) hb
      exact List.Perm.trans (hper.append_left (g y)) List.perm_middle

theorem map_append_flatMap_perm {α : Type} (f : Nat → α) (g h : Nat → List α) :
    ∀ l : List Nat, (∀ b ∈ l, h b = f b :: g b) →
    (l.map f ++ l.flatMap g).Perm (l.flatMap h) := by
  intro l
  induction l with
  | nil =>
    intro _
    simp
  | cons a t ih =>
    intro hb
    rw [List.map_cons, List.flatMap_cons, List.flatMap_cons, hb a (by simp),
      List.cons_append]
    refine List.Perm.cons (f a) ?_
    have h1 : (t.map f ++ (g a ++ t.flatMap g)).Perm
        (g a ++ (t.map f ++ t.flatMap g)) := by
      rw [← List.append_assoc, ← List.append_assoc]
      exact List.perm_append_comm.append_right _
    exact h1.trans ((ih fun y hy => hb y (by simp [hy])).append_left (g a))

theorem map_fst_getD {runs : List (Nat × Nat)} {b : Nat} (h : b < runs.length) :
    (runs.map Prod.fst).getD b 0 = (runs.getD b (0, 0)).1 := by
  rw [List.getD_eq_getElem _ _ (by simpa using h), List.getElem_map,
    List.getD_eq_getElem _ _ h]

theorem map_snd_getD {runs : List (Nat × Nat)} {b : Nat} (h : b < runs.length) :
    (runs.map Prod.snd).getD b 0 = (runs.getD b (0, 0)).2 := by
  rw [List.getD_eq_getElem _ _ (by simpa using h), List.getElem_map,
    List.getD_eq_getElem _ _ h]

theorem getD_mem_runs {l : List (Nat × Nat)} {b : Nat} (h : b < l.length) :
    l.getD b (0, 0) ∈ l := by
  rw [List.getD_eq_getElem _ _ h]
  exact List.getElem_mem h

theorem range_flatMap_getD {α : Type} (F : Nat × Nat → List α) :
    ∀ rs : List (Nat × Nat),
    (List.range rs.length).flatMap (fun b => F (rs.getD b (0, 0))) =
      rs.flatMap F := by
  intro rs
  induction rs with
  | nil => simp
  | cons r t ih =>
    rw [List.length_cons, List.range_succ_eq_map, List.flatMap_cons]
    have h2 : (List.map Nat.succ (List.range t.length)).flatMap
        (fun b => F ((r :: t).getD b (0, 0))) =
        (List.range t.length).flatMap (fun b => F (t.getD b (0, 0))) := by
      rw [List.flatMap_map]
      rfl
    rw [h2, ih]
    rfl

theorem range_map_getD (F : Nat × Nat → Nat) :
    ∀ rs : List (Nat × Nat),
    (List.range rs.length).map (fun b => F (rs.getD b (0, 0))) = rs.map F := by
  intro rs
  induction rs with
  | nil => simp
  | cons r t ih =>
    rw [List.length_cons, List.range_succ_eq_map, List.map_cons]
    have h2 : (List.map Nat.succ (List.range t.length)).map
        (fun b => F ((r :: t).getD b (0, 0))) =
        (List.range t.length).map (fun b => F (t.getD b (0, 0))) := by
      rw [List.map_map]
      rfl
    rw [h2, ih]
    rfl

/-! ## Merge-phase invariants -/

/-- The segment of arr with index range from c (inclusive) to e
(exclusive). -/
def seg (arr : List Int) (c e : Nat) : List Int :=
  (arr.drop c).take (e - c)

/-- The elements of arr not yet consumed by the merge: for each run b, the
segment from its cursor to its end. -/
def unread (arr : List Int) (runs : List (Nat × Nat)) (cursors : List Nat) :
    List Int :=
  (List.range runs.length).flatMap
    fun b => seg arr (cursors.getD b 0) (runs.getD b (0, 0)).2

theorem seg_empty (arr : List Int) {c e : Nat} (h : e ≤ c) :
    seg arr c e = [] := by
  unfold seg
  rw [show e - c = 0 by omega, List.take_zero]

theorem seg_cons (arr : List Int) {c e : Nat} (hce : c < e)
    (hen : e ≤ arr.length) : seg arr c e = arr.getD c 0 :: seg arr (c + 1) e := by
  unfold seg
  rw [drop_eq_getD_cons (show c < arr.length by omega) 0,
    show e - c = (e - (c + 1)) + 1 by omega, List.take_succ_cons]

/-- Within a single detected run the array is monotone between any two
positions. -/
theorem run_mono {arr : List Int} {runs : List (Nat × Nat)}
    (hsort : ∀ r ∈ runs, ∀ j, r.1 ≤ j → j + 1 < r.2 →
      arr.getD j 0 ≤ arr.getD (j + 1) 0)
    {r : Nat × Nat} (hr : r ∈ runs) :
    ∀ (j a : Nat), r.1 ≤ a → a ≤ j → j < r.2 →
    arr.getD a 0 ≤ arr.getD j 0 := by
  intro j
  induction j with
  | zero =>
    intro a h1 h2 _
    rw [Nat.le_zero.mp h2]
  | succ j ih =>
    intro a h1 h2 h3
    rcases Nat.eq_or_lt_of_le h2 with heq | hlt
    · rw [heq]
    · have step := hsort r hr j (by omega) h3
      exact le_trans (ih a h1 (by omega) (by omega)) step

/-- The heap-initialisation fold: starting from cursors that agree with the
run starts on a duplicate-free set of indices, it succeeds, bumps exactly
those cursors by one, and pushes exactly the first element of each of those
runs. -/
theorem initStep_fold_spec (arr : List Int) (runs : List (Nat × Nat))
    (hruns : ∀ r ∈ runs, r.1 < r.2 ∧ r.2 ≤ arr.length) :
    ∀ (bs : List Nat) (cursors : List Nat) (heap : List (Int × Nat)),
    cursors.length = runs.length →
    (∀ b ∈ bs, b < runs.length) → bs.Nodup →
    (∀ b ∈ bs, cursors.getD b 0 = (runs.getD b (0, 0)).1) →
    ∃ c2 h2,
      bs.foldlM (initStep arr (runs.map Prod.snd)) (cursors, heap) =
        some (c2, h2) ∧
      c2.length = runs.length ∧
      (∀ b ∈ bs, c2.getD b 0 = (runs.getD b (0, 0)).1 + 1) ∧
      (∀ b : Nat, b ∉ bs → c2.getD b 0 = cursors.getD b 0) ∧
      h2.Perm ((bs.map fun b => (arr.getD (runs.getD b (0, 0)).1 0, b)) ++ heap) := by
  intro bs
  induction bs with
  | nil =>
    intro cursors heap hlen _ _ _
    exact ⟨cursors, heap, rfl, hlen, by simp, fun _ _ => rfl, by simp⟩
  | cons b bs2 ih =>
    intro cursors heap hlen hbk hnd hstart
    rw [List.nodup_cons] at hnd
    have hb : b < runs.length := hbk b (by simp)
    have hbc : b < cursors.length := by omega
    have hr := hruns (runs.getD b (0, 0)) (getD_mem_runs hb)
    have hsb : cursors.getD b 0 = (runs.getD b (0, 0)).1 := hstart b (by simp)
    have hg1 : cursors.get? b = some (runs.getD b (0, 0)).1 := by
      rw [get?_eq_some_getD hbc 0, hsb]
    have hg2 : (runs.map Prod.snd).get? b = some (runs.getD b (0, 0)).2 := by
      rw [get?_eq_some_getD (show b < (runs.map Prod.snd).length by simpa using hb) 0,
        map_snd_getD hb]
    have hg3 : arr.get? (runs.getD b (0, 0)).1 =
        some (arr.getD (runs.getD b (0, 0)).1 0) :=
      get?_eq_some_getD (by omega) 0
    have hstep : initStep arr (runs.map Prod.snd) (cursors, heap) b =
        some (cursors.set b ((runs.getD b (0, 0)).1 + 1),
          (arr.getD (runs.getD b (0, 0)).1 0, b) :: heap) := by
      unfold initStep heapPush
      rw [hg1, hg2]
      dsimp only
      rw [if_pos hr.1, hg3]
    have hcset : cursors.set b ((runs.getD b (0, 0)).1 + 1) =
        cursors.set b (cursors.getD b 0 + 1) := by
      rw [hsb]
    obtain ⟨c2, h2, g1, g2, g3, g4, g5⟩ :=
      ih (cursors.set b ((runs.getD b (0, 0)).1 + 1))
        ((arr.getD (runs.getD b (0, 0)).1 0, b) :: heap)
        (by rw [List.length_set]; exact hlen)
        (fun a ha => hbk a (by simp [ha])) hnd.2
        (by
          intro a ha
          rw [natGetD_set_ne (show b ≠ a from fun h => hnd.1 (by rw [h]; exact ha)) _ 0]
          exact hstart a (by simp [ha]))
    refine ⟨c2, h2, ?_, g2, ?_, ?_, ?_⟩
    · rw [List.foldlM_cons, hstep]
      exact g1
    · intro a ha
      rcases List.mem_cons.mp ha with heq | ha2
      · rw [heq, g4 b hnd.1, natGetD_set_self hbc]
      · exact g3 a ha2
    · intro a ha
      have ha1 : a ∉ bs2 := fun h => ha (by simp [h])
      have ha2 : a ≠ b := fun h => ha (by simp [h])
      rw [g4 a ha1, natGetD_set_ne (fun h => ha2 h.symm) _ 0]
    · refine g5.trans ?_
      rw [List.map_cons, List.cons_append]
      exact List.perm_middle

theorem chain'_append_singleton {l : List Int} {v : Int}
    (hc : List.Chain' (· ≤ ·) l) (hlast : ∀ z ∈ l, z ≤ v) :
    List.Chain' (· ≤ ·) (l ++ [v]) := by
  rw [List.chain'_append]
  refine ⟨hc, List.chain'_singleton v, ?_⟩
  intro x hx y hy
  have hxl : x ∈ l := List.mem_of_mem_getLast? hx
  have hyv : v = y := by simpa using hy
  rw [← hyv]
  exact hlast x hxl

/-- The k-way merge loop of src/abs.py: given the merge invariants (cursor
bounds, heap entries bound their runs' unread elements, every unexhausted run
has a heap entry, the result so far is sorted and bounded by every heap
entry, and result + heap values + unread elements are a permutation of the
target), the loop succeeds and produces a sorted permutation of the
target. -/
theorem absMergeLoop_spec (arr : List Int) (runs : List (Nat × Nat))
    (all : List Int)
    (hruns : ∀ r ∈ runs, r.1 < r.2 ∧ r.2 ≤ arr.length)
    (hsort : ∀ r ∈ runs, ∀ j, r.1 ≤ j → j + 1 < r.2 →
      arr.getD j 0 ≤ arr.getD (j + 1) 0) :
    ∀ (fuel : Nat) (cursors : List Nat) (heap : List (Int × Nat))
      (result : List Int),
    cursors.length = runs.length →
    (∀ b, b < runs.length → (runs.getD b (0, 0)).1 ≤ cursors.getD b 0 ∧
      cursors.getD b 0 ≤ (runs.getD b (0, 0)).2) →
    (∀ p ∈ heap, p.2 < runs.length) →
    (∀ p ∈ heap, ∀ j, cursors.getD p.2 0 ≤ j → j < (runs.getD p.2 (0, 0)).2 →
      p.1 ≤ arr.getD j 0) →
    (∀ b, b < runs.length → cursors.getD b 0 < (runs.getD b (0, 0)).2 →
      ∃ v, (v, b) ∈ heap) →
    List.Chain' (· ≤ ·) result →
    (∀ p ∈ heap, ∀ x ∈ result, x ≤ p.1) →
    (result ++ heap.map Prod.fst ++ unread arr runs cursors).Perm all →
    heap.length + (unread arr runs cursors).length < fuel →
    ∃ res, absMergeLoop arr (runs.map Prod.snd) fuel cursors heap result =
      some res ∧ List.Chain' (· ≤ ·) res ∧ res.Perm all := by
  intro fuel
  induction fuel with
  | zero =>
    intro cursors heap result _ _ _ _ _ _ _ _ hfuel
    omega
  | succ fuel ih =>
    intro cursors heap result h1 h2 h3 h4 h5 h6 h7 h8 h9
    cases hpop : popMin heap with
    | none =>
      have hheap : heap = [] := popMin_eq_none_iff.mp hpop
      subst hheap
      have hz : ∀ b ∈ List.range runs.length,
          seg arr (cursors.getD b 0) (runs.getD b (0, 0)).2 = ([] : List Int) := by
        intro b hb
        rw [List.mem_range] at hb
        apply seg_empty
        by_contra hcon
        push_neg at hcon
        obtain ⟨v, hv⟩ := h5 b hb (by omega)
        simp at hv
      have hU : unread arr runs cursors = [] := by
        unfold unread
        rw [@flatMap_congr_mem Int
          (fun b => seg arr (cursors.getD b 0) (runs.getD b (0, 0)).2)
          (fun _ => ([] : List Int)) (List.range runs.length) hz]
        simp
      refine ⟨result, ?_, h6, ?_⟩
      · simp only [absMergeLoop, hpop]
      · rw [hU] at h8
        simpa using h8
    | some p =>
      obtain ⟨⟨v, b⟩, heap2⟩ := p
      obtain ⟨hperm_pop, hmin⟩ := popMin_spec heap (v, b) heap2 hpop
      have hvb_mem : (v, b) ∈ heap := hperm_pop.mem_iff.mpr (by simp)
      have hbk : b < runs.length := h3 (v, b) hvb_mem
      have hbc : b < cursors.length := by omega
      have hrb := hruns (runs.getD b (0, 0)) (getD_mem_runs hbk)
      have hg1 : cursors.get? b = some (cursors.getD b 0) :=
        get?_eq_some_getD hbc 0
      have hg2 : (runs.map Prod.snd).get? b = some (runs.getD b (0, 0)).2 := by
        rw [get?_eq_some_getD
          (show b < (runs.map Prod.snd).length by simpa using hbk) 0,
          map_snd_getD hbk]
      have hlen_pop : heap.length = heap2.length + 1 := by
        simpa using hperm_pop.length_eq
      have hmapf : (heap.map Prod.fst).Perm (v :: heap2.map Prod.fst) := by
        simpa using hperm_pop.map Prod.fst
      have hb2 : ∀ p ∈ heap2, p ∈ heap := by
        intro q hq
        exact hperm_pop.mem_iff.mpr (by simp [hq])
      have hchain2 : List.Chain' (· ≤ ·) (result ++ [v]) :=
        chain'_append_singleton h6 fun z hz => h7 (v, b) hvb_mem z hz
      by_cases hce : cursors.getD b 0 < (runs.getD b (0, 0)).2
      · -- the popped run still has unread elements: push its next one
        have hcn : cursors.getD b 0 < arr.length := by omega
        have hg3 : arr.get? (cursors.getD b 0) =
            some (arr.getD (cursors.getD b 0) 0) := get?_eq_some_getD hcn 0
        have hvx : v ≤ arr.getD (cursors.getD b 0) 0 :=
          h4 (v, b) hvb_mem (cursors.getD b 0) (le_refl _) hce
        have hUper : (unread arr runs cursors).Perm
            (arr.getD (cursors.getD b 0) 0 ::
              unread arr runs (cursors.set b (cursors.getD b 0 + 1))) := by
          unfold unread
          apply flatMap_update
          · exact List.mem_range.mpr hbk
          · exact List.nodup_range _
          · intro a _ hab
            rw [natGetD_set_ne (fun h => hab h.symm) _ 0]
          · rw [natGetD_set_self hbc]
            exact seg_cons arr hce hrb.2
        obtain ⟨res, hres, hressort, hresperm⟩ :=
          ih (cursors.set b (cursors.getD b 0 + 1))
            ((arr.getD (cursors.getD b 0) 0, b) :: heap2) (result ++ [v])
            (by rw [List.length_set]; exact h1)
            (by
              intro a ha
              by_cases hab : a = b
              · rw [hab, natGetD_set_self hbc]
                have := h2 b hbk
                omega
              · rw [natGetD_set_ne (fun h => hab h.symm) _ 0]
                exact h2 a ha)
            (by
              intro q hq
              rcases List.mem_cons.mp hq with heq | hq2
              · rw [heq]
                exact hbk
              · exact h3 q (hb2 q hq2))
            (by
              intro q hq j hj1 hj2
              rcases List.mem_cons.mp hq with heq | hq2
              · subst heq
                dsimp only at hj1 hj2 ⊢
                rw [natGetD_set_self hbc] at hj1
                exact run_mono hsort (getD_mem_runs hbk) j (cursors.getD b 0)
                  (h2 b hbk).1 (by omega) hj2
              · have hqold := h4 q (hb2 q hq2)
                by_cases hqb : q.2 = b
                · rw [hqb, natGetD_set_self hbc] at hj1
                  refine hqold j ?_ hj2
                  rw [hqb]
                  omega
                · rw [natGetD_set_ne (fun h => hqb h.symm) _ 0] at hj1
                  exact hqold j hj1 hj2)
            (by
              intro a ha hact
              by_cases hab : a = b
              · refine ⟨arr.getD (cursors.getD b 0) 0, ?_⟩
                rw [hab]
                simp
              · rw [natGetD_set_ne (fun h => hab h.symm) _ 0] at hact
                obtain ⟨v2, hv2⟩ := h5 a ha hact
                rcases List.mem_cons.mp (hperm_pop.mem_iff.mp hv2) with heq | hmem2
                · exfalso
                  apply hab
                  have := congrArg Prod.snd heq
                  simpa using this
                · exact ⟨v2, List.mem_cons_of_mem _ hmem2⟩)
            hchain2
            (by
              intro q hq y hy
              rcases List.mem_append.mp hy with hyr | hyv
              · rcases List.mem_cons.mp hq with heq | hq2
                · subst heq
                  exact le_trans (h7 (v, b) hvb_mem y hyr) hvx
                · exact h7 q (hb2 q hq2) y hyr
              · have hyv2 : y = v := by simpa using hyv
                subst hyv2
                rcases List.mem_cons.mp hq with heq | hq2
                · subst heq
                  exact hvx
                · exact hmin q (hb2 q hq2))
            (by
              simp only [List.map_cons, List.append_assoc, List.cons_append,
                List.singleton_append] at h8 ⊢
              refine List.Perm.trans ?_ h8
              refine List.Perm.append_left result ?_
              refine List.Perm.trans ((List.perm_middle.symm).cons v) ?_
              refine List.Perm.trans
                (((hUper.symm).append_left (heap2.map Prod.fst)).cons v) ?_
              rw [← List.cons_append]
              exact (hmapf.symm).append_right _)
            (by
              have hul := hUper.length_eq
              simp only [List.length_cons] at hul
              simp only [List.length_cons]
              omega)
        refine ⟨res, ?_, hressort, hresperm⟩
        simp only [absMergeLoop, hpop, hg1, hg2, hg3, if_pos hce, heapPush]
        exact hres
      · -- the popped run is exhausted: nothing is pushed
        obtain ⟨res, hres, hressort, hresperm⟩ :=
          ih cursors heap2 (result ++ [v]) h1 h2
            (fun q hq => h3 q (hb2 q hq))
            (fun q hq => h4 q (hb2 q hq))
            (by
              intro a ha hact
              obtain ⟨v2, hv2⟩ := h5 a ha hact
              rcases List.mem_cons.mp (hperm_pop.mem_iff.mp hv2) with heq | hmem2
              · exfalso
                have hab : a = b := by
                  have := congrArg Prod.snd heq
                  simpa using this
                rw [hab] at hact
                omega
              · exact ⟨v2, hmem2⟩)
            hchain2
            (by
              intro q hq y hy
              rcases List.mem_append.mp hy with hyr | hyv
              · exact h7 q (hb2 q hq) y hyr
              · have hyv2 : y = v := by simpa using hyv
                subst hyv2
                exact hmin q (hb2 q hq))
            (by
              simp only [List.append_assoc, List.cons_append,
                List.singleton_append] at h8 ⊢
              refine List.Perm.trans ?_ h8
              refine List.Perm.append_left result ?_
              rw [← List.cons_append]
              exact (hmapf.symm).append_right _)
            (by omega)
        refine ⟨res, ?_, hressort, hresperm⟩
        simp only [absMergeLoop, hpop, hg1, hg2, if_neg hce]
        exact hres

/-! ## The abs merge phase and copy back -/

/-- The whole merge phase of src/abs.py succeeds and returns a sorted
permutation of the (block-sorted) array, given the run facts provided by run
detection. -/
theorem absMergePhase_spec (arr : List Int) (runs : List (Nat × Nat))
    (hruns : ∀ r ∈ runs, r.1 < r.2 ∧ r.2 ≤ arr.length)
    (hsort : ∀ r ∈ runs, ∀ j, r.1 ≤ j → j + 1 < r.2 →
      arr.getD j 0 ≤ arr.getD (j + 1) 0)
    (hflat : runs.flatMap (fun r => (arr.drop r.1).take (r.2 - r.1)) = arr) :
    ∃ res, absMergePhase arr runs = some res ∧
      List.Chain' (· ≤ ·) res ∧ res.Perm arr := by
  obtain ⟨c2, h2heap, g1, g2, g3, g4, g5⟩ :=
    initStep_fold_spec arr runs hruns (List.range runs.length)
      (runs.map Prod.fst) []
      (by simp)
      (fun b hb => List.mem_range.mp hb)
      (List.nodup_range _)
      (fun b hb => map_fst_getD (List.mem_range.mp hb))
  have hmem_char : ∀ p ∈ h2heap, ∃ b, b < runs.length ∧
      p = (arr.getD (runs.getD b (0, 0)).1 0, b) := by
    intro p hp
    have hp2 := g5.mem_iff.mp hp
    rw [List.append_nil] at hp2
    obtain ⟨b, hbr, heq⟩ := List.mem_map.mp hp2
    exact ⟨b, List.mem_range.mp hbr, heq.symm⟩
  have hseg_cong : unread arr runs c2 =
      (List.range runs.length).flatMap
        (fun b => seg arr ((runs.getD b (0, 0)).1 + 1) (runs.getD b (0, 0)).2) := by
    unfold unread
    apply flatMap_congr_mem
    intro b hb
    rw [g3 b hb]
  have hflat2 : (List.range runs.length).flatMap
      (fun b => seg arr (runs.getD b (0, 0)).1 (runs.getD b (0, 0)).2) = arr := by
    have h1 := range_flatMap_getD (fun r => seg arr r.1 r.2) runs
    exact h1.trans hflat
  have hperm0 : ((List.range runs.length).map
        (fun b => arr.getD (runs.getD b (0, 0)).1 0) ++
      (List.range runs.length).flatMap
        (fun b => seg arr ((runs.getD b (0, 0)).1 + 1) (runs.getD b (0, 0)).2)).Perm
      arr := by
    refine List.Perm.trans
      (map_append_flatMap_perm _ _
        (fun b => seg arr (runs.getD b (0, 0)).1 (runs.getD b (0, 0)).2) _ ?_) ?_
    · intro b hb
      have hr := hruns _ (getD_mem_runs (List.mem_range.mp hb))
      exact seg_cons arr hr.1 hr.2
    · rw [hflat2]
  have hmf : (h2heap.map Prod.fst).Perm
      ((List.range runs.length).map
        (fun b => arr.getD (runs.getD b (0, 0)).1 0)) := by
    have hcomp := g5.map Prod.fst
    rw [List.append_nil, List.map_map] at hcomp
    exact hcomp
  have hperm8 : (([] : List Int) ++ h2heap.map Prod.fst ++
      unread arr runs c2).Perm arr := by
    rw [List.nil_append, hseg_cong]
    exact List.Perm.trans (hmf.append_right _) hperm0
  have hfuel : h2heap.length + (unread arr runs c2).length < arr.length + 1 := by
    have hlen8 := hperm8.length_eq
    rw [List.length_append, List.length_append, List.length_nil,
      List.length_map] at hlen8
    omega
  obtain ⟨res, hres, hsorted, hperm⟩ :=
    absMergeLoop_spec arr runs arr hruns hsort (arr.length + 1) c2 h2heap []
      g2
      (by
        intro b hb
        have hg := g3 b (List.mem_range.mpr hb)
        have hr := hruns _ (getD_mem_runs hb)
        omega)
      (by
        intro p hp
        obtain ⟨b, hb, heq⟩ := hmem_char p hp
        rw [heq]
        exact hb)
      (by
        intro p hp j hj1 hj2
        obtain ⟨b, hb, heq⟩ := hmem_char p hp
        subst heq
        dsimp only at hj1 hj2 ⊢
        rw [g3 b (List.mem_range.mpr hb)] at hj1
        exact run_mono hsort (getD_mem_runs hb) j (runs.getD b (0, 0)).1
          (le_refl _) (by omega) hj2)
      (by
        intro b hb _
        refine ⟨arr.getD (runs.getD b (0, 0)).1 0, ?_⟩
        apply g5.mem_iff.mpr
        rw [List.append_nil]
        exact List.mem_map.mpr ⟨b, List.mem_range.mpr hb, rfl⟩)
      List.chain'_nil
      (by
        intro p _ x hx
        simp at hx)
      hperm8
      hfuel
  refine ⟨res, ?_, hsorted, hperm⟩
  unfold absMergePhase initHeap
  rw [g1]
  exact hres

theorem copyBack_fold_spec (res : List Int) :
    ∀ (r : Nat) (a : List Int), a.length = res.length → r ≤ res.length →
    (∀ j, j < res.length - r → a.getD j 0 = res.getD j 0) →
    (List.range' (res.length - r) r).foldlM (copyStep res) a = some res := by
  intro r
  induction r with
  | zero =>
    intro a hlen _ hpre
    have hae : a = res := by
      apply List.ext_getElem hlen
      intro i h1 h2
      have := hpre i (by omega)
      rwa [List.getD_eq_getElem a 0 h1, List.getD_eq_getElem res 0 h2] at this
    subst hae
    rfl
  | succ r ih =>
    intro a hlen hr hpre
    have hi0lt : res.length - (r + 1) < res.length := by omega
    have hstep : copyStep res a (res.length - (r + 1)) =
        some (a.set (res.length - (r + 1)) (res.getD (res.length - (r + 1)) 0)) := by
      unfold copyStep
      rw [get?_eq_some_getD hi0lt 0]
      dsimp only
      rw [listSet?_some (show res.length - (r + 1) < a.length by omega)]
    rw [List.range'_succ, List.foldlM_cons, hstep]
    rw [show res.length - (r + 1) + 1 = res.length - r by omega]
    simp only [Option.bind_eq_bind, Option.some_bind]
    apply ih
    · rw [List.length_set]
      exact hlen
    · omega
    · intro j hj
      by_cases hji : j = res.length - (r + 1)
      · rw [hji, getD_set_self (by omega) _ 0]
      · rw [getD_set_ne (fun h => hji h.symm) _ 0]
        exact hpre j (by omega)

theorem copyBack_eq (arr res : List Int) (hlen : arr.length = res.length) :
    copyBack arr res = some res := by
  unfold copyBack
  rw [List.range_eq_range', hlen]
  have h0 : (0 : Nat) = res.length - res.length := by omega
  rw [h0]
  exact copyBack_fold_spec res res.length arr hlen (le_refl _) (by omega)

/-! ## Full correctness of adaptive_block_sort -/

/-- adaptive_block_sort succeeds on every input and returns a sorted
permutation of it. -/
theorem abs_spec_full (arr : List Int) :
    ∃ outp, adaptive_block_sort arr = some outp ∧
      List.Chain' (· ≤ ·) outp ∧ outp.Perm arr := by
  by_cases hn : arr.length ≤ 1
  · refine ⟨arr, ?_, ?_, List.Perm.refl arr⟩
    · unfold adaptive_block_sort
      rw [if_pos hn]
    · rcases arr with _ | ⟨x, _ | ⟨y, t⟩⟩
      · exact List.chain'_nil
      · exact List.chain'_singleton x
      · simp at hn
  · obtain ⟨arr1, hbp, hbl, hbperm⟩ := blockPass_spec arr (absBlockSize arr.length)
    obtain ⟨runs, hdr, hrnil, hrne, hrchain, hrruns, hrcov, hrflat⟩ :=
      detectRuns_spec arr1 (arr.length + 1) 0 (by omega) (by omega)
    rw [List.drop_zero] at hrflat
    unfold adaptive_block_sort
    rw [if_neg hn]
    dsimp only
    rw [hbp]
    dsimp only
    rw [hdr]
    dsimp only
    by_cases hfast : runs.length = 1 ∧ runs.getD 0 (0, 0) = (0, arr.length)
    · rw [if_pos hfast]
      refine ⟨arr1, rfl, ?_, hbperm⟩
      have hr0 := hrruns (runs.getD 0 (0, 0)) (getD_mem_runs (by omega))
      rw [hfast.2] at hr0
      apply chain'_of_getD
      intro j hj
      exact hr0.2.2.2 j (by omega) (by omega)
    · rw [if_neg hfast]
      obtain ⟨res, hmp, hressort, hresperm⟩ :=
        absMergePhase_spec arr1 runs
          (fun r hr => ⟨(hrruns r hr).2.1, (hrruns r hr).2.2.1⟩)
          (fun r hr => (hrruns r hr).2.2.2)
          hrflat
      rw [hmp]
      dsimp only
      rw [copyBack_eq arr1 res (hresperm.length_eq).symm]
      exact ⟨res, rfl, hressort, hresperm.trans hbperm⟩

/-- On an already-sorted input of length at least 2, adaptive_block_sort
detects the single run (0, n) and returns the input unchanged through the
fast path. -/
theorem abs_sorted_fast_path (arr : List Int) (hs : List.Chain' (· ≤ ·) arr)
    (h2 : 2 ≤ arr.length) :
    detectRuns arr (arr.length + 1) 0 = some [(0, arr.length)] ∧
    adaptive_block_sort arr = some arr := by
  have hdr := detectRuns_sorted arr hs (by omega)
  refine ⟨hdr, ?_⟩
  unfold adaptive_block_sort
  rw [if_neg (by omega)]
  dsimp only
  rw [blockPass_sorted_id hs (absBlockSize arr.length)]
  dsimp only
  rw [hdr]
  dsimp only
  rw [if_pos (show ([(0, arr.length)] : List (Nat × Nat)).length = 1 ∧
      ([(0, arr.length)] : List (Nat × Nat)).getD 0 (0, 0) = (0, arr.length)
      from ⟨rfl, rfl⟩)]

/-- On an already-sorted input of length at least 2,
optimized_adaptive_block_sort detects the single run (0, n) and returns the
input unchanged through the fast path. -/
theorem oabs_sorted_fast_path (arr : List Int) (hs : List.Chain' (· ≤ ·) arr)
    (h2 : 2 ≤ arr.length) :
    optimized_adaptive_block_sort arr = some arr := by
  have hdr := detectRuns_sorted arr hs (by omega)
  unfold optimized_adaptive_block_sort
  rw [if_neg (by omega)]
  dsimp only
  rw [blockPass_sorted_id hs (oabsBlockSize arr.length)]
  dsimp only
  rw [hdr]
  dsimp only
  rw [if_pos (show ([(0, arr.length)] : List (Nat × Nat)).length = 1 ∧
      ([(0, arr.length)] : List (Nat × Nat)).getD 0 (0, 0) = (0, arr.length)
      from ⟨rfl, rfl⟩)]

/-! ## The oabs in-place merge: bookkeeping invariants -/

/-- The total number of array positions not yet read by the merge. -/
def remaining (runs : List (Nat × Nat)) (cursors : List Nat) : Nat :=
  ((List.range runs.length).map
    (fun b => (runs.getD b (0, 0)).2 - cursors.getD b 0)).sum

theorem sum_map_succ_each (f g : Nat → Nat) :
    ∀ l : List Nat, (∀ b ∈ l, f b + 1 = g b) →
    (l.map g).sum = (l.map f).sum + l.length := by
  intro l
  induction l with
  | nil =>
    intro _
    rfl
  | cons a t ih =>
    intro h
    simp only [List.map_cons, List.sum_cons, List.length_cons]
    rw [ih fun b hb => h b (by simp [hb]), ← h a (by simp)]
    omega

/-- The in-place merge loop of src/oabs.py terminates with
write_index = n: every position covered by the runs is written exactly
once. -/
theorem oabsMergeLoop_spec (runs : List (Nat × Nat)) (n0 : Nat)
    (hrn : ∀ r ∈ runs, r.2 ≤ n0) :
    ∀ (fuel : Nat) (arr : List Int) (w : Nat) (cursors : List Nat)
      (heap : List (Int × Nat)),
    arr.length = n0 →
    cursors.length = runs.length →
    (∀ p ∈ heap, p.2 < runs.length) →
    (∀ b, b < runs.length → cursors.getD b 0 ≤ (runs.getD b (0, 0)).2) →
    (∀ b, b < runs.length → cursors.getD b 0 < (runs.getD b (0, 0)).2 →
      ∃ v, (v, b) ∈ heap) →
    w + heap.length + remaining runs cursors = n0 →
    heap.length + remaining runs cursors < fuel →
    ∃ arr2, oabsMergeLoop (runs.map Prod.snd) fuel arr w cursors heap =
      some (arr2, n0) ∧ arr2.length = n0 := by
  intro fuel
  induction fuel with
  | zero =>
    intro arr w cursors heap _ _ _ _ _ _ hfuel
    omega
  | succ fuel ih =>
    intro arr w cursors heap hal h1 h3 h2 h5 hcount hfuel
    cases hpop : popMin heap with
    | none =>
      have hheap : heap = [] := popMin_eq_none_iff.mp hpop
      subst hheap
      have hrem : remaining runs cursors = 0 := by
        apply List.sum_eq_zero
        intro x hx
        obtain ⟨b, hbr, rfl⟩ := List.mem_map.mp hx
        rw [List.mem_range] at hbr
        by_cases hact : cursors.getD b 0 < (runs.getD b (0, 0)).2
        · obtain ⟨v, hv⟩ := h5 b hbr hact
          simp at hv
        · omega
      have hw : w = n0 := by
        rw [hrem] at hcount
        simpa using hcount
      refine ⟨arr, ?_, hal⟩
      rw [hw]
      simp only [oabsMergeLoop, hpop]
    | some p =>
      obtain ⟨⟨v, b⟩, heap2⟩ := p
      obtain ⟨hperm_pop, _⟩ := popMin_spec heap (v, b) heap2 hpop
      have hvb_mem : (v, b) ∈ heap := hperm_pop.mem_iff.mpr (by simp)
      have hbk : b < runs.length := h3 (v, b) hvb_mem
      have hbc : b < cursors.length := by omega
      have hlen_pop : heap.length = heap2.length + 1 := by
        simpa using hperm_pop.length_eq
      have hb2 : ∀ q ∈ heap2, q ∈ heap := by
        intro q hq
        exact hperm_pop.mem_iff.mpr (by simp [hq])
      have hw : w < arr.length := by omega
      have hset : listSet? arr w v = some (arr.set w v) := listSet?_some hw v
      have hal2 : (arr.set w v).length = n0 := by
        rw [List.length_set]
        exact hal
      have hg1 : cursors.get? b = some (cursors.getD b 0) :=
        get?_eq_some_getD hbc 0
      have hg2 : (runs.map Prod.snd).get? b = some (runs.getD b (0, 0)).2 := by
        rw [get?_eq_some_getD
          (show b < (runs.map Prod.snd).length by simpa using hbk) 0,
          map_snd_getD hbk]
      have hrb : (runs.getD b (0, 0)).2 ≤ n0 := hrn _ (getD_mem_runs hbk)
      by_cases hce : cursors.getD b 0 < (runs.getD b (0, 0)).2
      · have hg3 : (arr.set w v).get? (cursors.getD b 0) =
            some ((arr.set w v).getD (cursors.getD b 0) 0) :=
          get?_eq_some_getD (by omega) 0
        have hremup : remaining runs (cursors.set b (cursors.getD b 0 + 1)) + 1 =
            remaining runs cursors := by
          unfold remaining
          rw [sum_map_update
            (fun a => (runs.getD a (0, 0)).2 - cursors.getD a 0)
            (fun a => (runs.getD a (0, 0)).2 -
              (cursors.set b (cursors.getD b 0 + 1)).getD a 0)
            (List.range runs.length) (List.mem_range.mpr hbk)
            (List.nodup_range _)
            (by
              intro a _ hab
              dsimp only
              rw [natGetD_set_ne (fun h => hab h.symm) _ 0])
            (by
              dsimp only
              rw [natGetD_set_self hbc]
              omega)]
        obtain ⟨arr2, hres, hlen2⟩ :=
          ih (arr.set w v) (w + 1) (cursors.set b (cursors.getD b 0 + 1))
            (((arr.set w v).getD (cursors.getD b 0) 0, b) :: heap2)
            hal2
            (by rw [List.length_set]; exact h1)
            (by
              intro q hq
              rcases List.mem_cons.mp hq with heq | hq2
              · rw [heq]
                exact hbk
              · exact h3 q (hb2 q hq2))
            (by
              intro a ha
              by_cases hab : a = b
              · rw [hab, natGetD_set_self hbc]
                omega
              · rw [natGetD_set_ne (fun h => hab h.symm) _ 0]
                exact h2 a ha)
            (by
              intro a ha hact
              by_cases hab : a = b
              · refine ⟨(arr.set w v).getD (cursors.getD b 0) 0, ?_⟩
                rw [hab]
                simp
              · rw [natGetD_set_ne (fun h => hab h.symm) _ 0] at hact
                obtain ⟨v2, hv2⟩ := h5 a ha hact
                rcases List.mem_cons.mp (hperm_pop.mem_iff.mp hv2) with heq | hmem2
                · exfalso
                  apply hab
                  have := congrArg Prod.snd heq
                  simpa using this
                · exact ⟨v2, List.mem_cons_of_mem _ hmem2⟩)
            (by
              simp only [List.length_cons]
              omega)
            (by
              simp only [List.length_cons]
              omega)
        refine ⟨arr2, ?_, hlen2⟩
        simp only [oabsMergeLoop, hpop, hset, hg1, hg2, if_pos hce, hg3, heapPush]
        exact hres
      · obtain ⟨arr2, hres, hlen2⟩ :=
          ih (arr.set w v) (w + 1) cursors heap2 hal2 h1
            (fun q hq => h3 q (hb2 q hq)) h2
            (by
              intro a ha hact
              obtain ⟨v2, hv2⟩ := h5 a ha hact
              rcases List.mem_cons.mp (hperm_pop.mem_iff.mp hv2) with heq | hmem2
              · exfalso
                have hab : a = b := by
                  have := congrArg Prod.snd heq
                  simpa using this
                rw [hab] at hact
                omega
              · exact ⟨v2, hmem2⟩)
            (by omega)
            (by omega)
        refine ⟨arr2, ?_, hlen2⟩
        simp only [oabsMergeLoop, hpop, hset, hg1, hg2, if_neg hce]
        exact hres

/-- The whole oabs merge phase succeeds and exits with
write_index = n (each of the n positions covered by the runs is popped from
the heap exactly once). -/
theorem oabsMergePhase_spec (arr : List Int) (runs : List (Nat × Nat))
    (hruns : ∀ r ∈ runs, r.1 < r.2 ∧ r.2 ≤ arr.length)
    (hflat : runs.flatMap (fun r => (arr.drop r.1).take (r.2 - r.1)) = arr) :
    ∃ arr2, oabsMergePhase arr runs = some (arr2, arr.length) ∧
      arr2.length = arr.length := by
  obtain ⟨c2, h2heap, g1, g2, g3, g4, g5⟩ :=
    initStep_fold_spec arr runs hruns (List.range runs.length)
      (runs.map Prod.fst) []
      (by simp)
      (fun b hb => List.mem_range.mp hb)
      (List.nodup_range _)
      (fun b hb => map_fst_getD (List.mem_range.mp hb))
  have hhl : h2heap.length = runs.length := by
    simpa using g5.length_eq
  have hsum : ((List.range runs.length).map
      (fun b => (runs.getD b (0, 0)).2 - (runs.getD b (0, 0)).1)).sum =
      arr.length := by
    have hlenflat := congrArg List.length hflat
    rw [List.length_flatMap] at hlenflat
    have hmapeq : runs.map
        (List.length ∘ fun r => (arr.drop r.1).take (r.2 - r.1)) =
        runs.map (fun r => r.2 - r.1) := by
      apply List.map_congr_left
      intro r hr
      have hr2 := hruns r hr
      simp only [Function.comp_apply, List.length_take, List.length_drop]
      omega
    rw [hmapeq] at hlenflat
    rw [range_map_getD (fun r => r.2 - r.1) runs]
    exact hlenflat
  have hrem : remaining runs c2 + runs.length = arr.length := by
    unfold remaining
    have hss := sum_map_succ_each
      (fun b => (runs.getD b (0, 0)).2 - c2.getD b 0)
      (fun b => (runs.getD b (0, 0)).2 - (runs.getD b (0, 0)).1)
      (List.range runs.length)
      (by
        intro b hb
        dsimp only
        rw [g3 b hb]
        have hr := hruns _ (getD_mem_runs (List.mem_range.mp hb))
        omega)
    rw [List.length_range, hsum] at hss
    omega
  obtain ⟨arr2, hres, hlen2⟩ :=
    oabsMergeLoop_spec runs arr.length (fun r hr => (hruns r hr).2)
      (arr.length + 1) arr 0 c2 h2heap rfl g2
      (by
        intro p hp
        have hp2 := g5.mem_iff.mp hp
        rw [List.append_nil] at hp2
        obtain ⟨b, hbr, heq⟩ := List.mem_map.mp hp2
        rw [← heq]
        exact List.mem_range.mp hbr)
      (by
        intro b hb
        rw [g3 b (List.mem_range.mpr hb)]
        have hr := hruns _ (getD_mem_runs hb)
        omega)
      (by
        intro b hb _
        refine ⟨arr.getD (runs.getD b (0, 0)).1 0, ?_⟩
        apply g5.mem_iff.mpr
        rw [List.append_nil]
        exact List.mem_map.mpr ⟨b, List.mem_range.mpr hb, rfl⟩)
      (by omega)
      (by omega)
  refine ⟨arr2, ?_, hlen2⟩
  unfold oabsMergePhase initHeap
  rw [g1]
  exact hres

/-- The final adjustment loop of src/oabs.py run with write_index = n
iterates over range(n, n), i.e. never executes, and returns the array
unchanged. -/
theorem cleanupPass_at_end (arr : List Int) :
    cleanupPass arr arr.length = some arr := by
  unfold cleanupPass
  rw [Nat.sub_self]
  rfl

/-- optimized_adaptive_block_sort never goes out of bounds: it succeeds on
every input, and returns a list of the same length. -/
theorem oabs_spec_total (arr : List Int) :
    ∃ outp, optimized_adaptive_block_sort arr = some outp ∧
      outp.length = arr.length := by
  by_cases hn : arr.length ≤ 1
  · refine ⟨arr, ?_, rfl⟩
    unfold optimized_adaptive_block_sort
    rw [if_pos hn]
  · obtain ⟨arr1, hbp, hbl, hbperm⟩ :=
      blockPass_spec arr (oabsBlockSize arr.length)
    obtain ⟨runs, hdr, hrnil, hrne, hrchain, hrruns, hrcov, hrflat⟩ :=
      detectRuns_spec arr1 (arr.length + 1) 0 (by omega) (by omega)
    rw [List.drop_zero] at hrflat
    unfold optimized_adaptive_block_sort
    rw [if_neg hn]
    dsimp only
    rw [hbp]
    dsimp only
    rw [hdr]
    dsimp only
    by_cases hfast : runs.length = 1 ∧ runs.getD 0 (0, 0) = (0, arr.length)
    · rw [if_pos hfast]
      exact ⟨arr1, rfl, hbl⟩
    · rw [if_neg hfast]
      obtain ⟨arr2, hmp, hlen2⟩ := oabsMergePhase_spec arr1 runs
        (fun r hr => ⟨(hrruns r hr).2.1, (hrruns r hr).2.2.1⟩) hrflat
      rw [hmp]
      dsimp only
      have hcl : cleanupPass arr2 arr1.length = some arr2 := by
        rw [← hlen2]
        exact cleanupPass_at_end arr2
      rw [hcl]
      exact ⟨arr2, rfl, by omega⟩

/-! ## Claim theorems -/

/-- C1: the claim says optimized_adaptive_block_sort always returns a list
in non-decreasing order.  The code violates it: on the 17-element input
below (two sorted blocks of 8 followed by one extra element) the in-place
merge overwrites the first run's unread elements, and since write_index = n
at merge exit the repair pass never runs; the returned list has 10 at index
9 followed by 1 at index 10.  This theorem evaluates the code at the failing
input. -/
theorem C1_oabs_unsorted_eval :
    optimized_adaptive_block_sort
      [10, 11, 12, 13, 14, 15, 16, 17, 1, 2, 3, 4, 5, 6, 7, 8, 0] =
      some [0, 1, 2, 3, 4, 5, 6, 7, 8, 10, 1, 2, 3, 4, 5, 6, 7] ∧
    nondecr [0, 1, 2, 3, 4, 5, 6, 7, 8, 10, 1, 2, 3, 4, 5, 6, 7] = false :=
  ⟨rfl, rfl⟩

/-- C2: for every input list, adaptive_block_sort returns the
reference-sorted version of its input: a non-decreasing list whose multiset
of elements equals the multiset of the input (stated as a list
permutation). -/
theorem C2_abs_sorts (arr : List Int) :
    ∃ outp, adaptive_block_sort arr = some outp ∧
      nondecr outp = true ∧ outp.Perm arr := by
  obtain ⟨outp, h1, h2, h3⟩ := abs_spec_full arr
  exact ⟨outp, h1, (nondecr_iff_chain outp).mpr h2, h3⟩

/-- C3: the claim says the multiset of the output of
optimized_adaptive_block_sort equals the multiset of the input.  The code
violates it on its own test input: the in-place merge overwrites the
unconsumed values 64 and 90 with 34, so the output has three 34s and no 64.
This theorem evaluates the code at the failing input. -/
theorem C3_oabs_not_permutation_eval :
    optimized_adaptive_block_sort [64, 34, 25, 12, 22, 11, 90, 12, 45, 33] =
      some [11, 12, 12, 22, 25, 33, 34, 34, 34, 45] ∧
    ¬ ([11, 12, 12, 22, 25, 33, 34, 34, 34, 45] : List Int).Perm
      [64, 34, 25, 12, 22, 11, 90, 12, 45, 33] := by
  refine ⟨rfl, fun h => absurd (h.count_eq 64) (by decide)⟩

/-- C4: the claim says the two sorts return equal lists on every input.
They differ on the repository's own test input: adaptive_block_sort returns
the correctly sorted list while optimized_adaptive_block_sort returns a
corrupted one. -/
theorem C4_not_equal_eval :
    adaptive_block_sort [64, 34, 25, 12, 22, 11, 90, 12, 45, 33] =
      some [11, 12, 12, 22, 25, 33, 34, 45, 64, 90] ∧
    optimized_adaptive_block_sort [64, 34, 25, 12, 22, 11, 90, 12, 45, 33] =
      some [11, 12, 12, 22, 25, 33, 34, 34, 34, 45] ∧
    ([11, 12, 12, 22, 25, 33, 34, 45, 64, 90] : List Int) ≠
      [11, 12, 12, 22, 25, 33, 34, 34, 34, 45] :=
  ⟨rfl, rfl, by decide⟩

/-- C5: the claim says both sorts map [64, 34, 25, 12, 22, 11, 90, 12, 45,
33] to [11, 12, 12, 22, 25, 33, 34, 45, 64, 90].  adaptive_block_sort does;
optimized_adaptive_block_sort does not (its in-place merge corrupts the
data), contradicting Scenario 1 of the specification and the code's own test
harness. -/
theorem C5_scenario1_eval :
    adaptive_block_sort [64, 34, 25, 12, 22, 11, 90, 12, 45, 33] =
      some [11, 12, 12, 22, 25, 33, 34, 45, 64, 90] ∧
    optimized_adaptive_block_sort [64, 34, 25, 12, 22, 11, 90, 12, 45, 33] ≠
      some [11, 12, 12, 22, 25, 33, 34, 45, 64, 90] :=
  ⟨rfl, by decide⟩

/-- C6: on every already non-decreasing input of length at least 2, run
detection finds exactly the single run (0, n), and both sorts return the
input list unchanged through the fast path, before the merge phase. -/
theorem C6_sorted_fast_path (arr : List Int) (h2 : 2 ≤ arr.length)
    (hs : nondecr arr = true) :
    detectRuns arr (arr.length + 1) 0 = some [(0, arr.length)] ∧
    adaptive_block_sort arr = some arr ∧
    optimized_adaptive_block_sort arr = some arr := by
  have hc := (nondecr_iff_chain arr).mp hs
  obtain ⟨hdr, habs⟩ := abs_sorted_fast_path arr hc h2
  exact ⟨hdr, habs, oabs_sorted_fast_path arr hc h2⟩

/-- C6 witness: the sorted list [1, 2, 3]. -/
theorem C6_witness :
    (2 ≤ ([1, 2, 3] : List Int).length ∧ nondecr [1, 2, 3] = true) ∧
    (detectRuns [(1 : Int), 2, 3] (([(1 : Int), 2, 3]).length + 1) 0 =
        some [(0, ([(1 : Int), 2, 3]).length)] ∧
      adaptive_block_sort [(1 : Int), 2, 3] = some [(1 : Int), 2, 3] ∧
      optimized_adaptive_block_sort [(1 : Int), 2, 3] = some [(1 : Int), 2, 3]) :=
  ⟨⟨by decide, by decide⟩, C6_sorted_fast_path [(1 : Int), 2, 3] (by decide) (by decide)⟩

/-- C7: in both sorts, the run list produced by the run-detection scan over
the block-sorted array partitions the index range: it is non-empty, starts
at 0, ends at n, each run's end equals the next run's start, the runs are
pairwise disjoint, every index below n is covered by some run, and each run
is a non-empty in-bounds non-decreasing contiguous segment. -/
theorem C7_runs_partition (arr : List Int) (bs : Nat) (h2 : 2 ≤ arr.length)
    (arr2 : List Int) (hbp : blockPass arr bs = some arr2)
    (runs : List (Nat × Nat))
    (hdr : detectRuns arr2 (arr.length + 1) 0 = some runs) :
    runs ≠ [] ∧ (runs.headD (0, 0)).1 = 0 ∧
    (runs.getLastD (0, 0)).2 = arr2.length ∧
    List.Chain' (fun r s => r.2 = s.1) runs ∧
    List.Pairwise (fun r s => r.2 ≤ s.1) runs ∧
    (∀ m, m < arr2.length → ∃ r ∈ runs, r.1 ≤ m ∧ m < r.2) ∧
    (∀ r ∈ runs, r.1 < r.2 ∧ r.2 ≤ arr2.length ∧
      ∀ j, r.1 ≤ j → j + 1 < r.2 → arr2.getD j 0 ≤ arr2.getD (j + 1) 0) := by
  obtain ⟨arr2x, hbpx, hblx, _⟩ := blockPass_spec arr bs
  rw [hbp] at hbpx
  obtain rfl : arr2 = arr2x := Option.some.inj hbpx
  obtain ⟨rs, hdrx, hrnil, hrne, hrchain, hrruns, hrcov, _⟩ :=
    detectRuns_spec arr2 (arr.length + 1) 0 (by omega) (by omega)
  rw [hdr] at hdrx
  obtain rfl : runs = rs := Option.some.inj hdrx
  have hne := hrne (by omega)
  refine ⟨hne.1, hne.2.1, hne.2.2, hrchain, ?_, ?_, ?_⟩
  · exact runs_pairwise runs hrchain fun r hr => (hrruns r hr).2.1
  · intro m hm
    obtain ⟨r, hr1, hr2, hr3⟩ := hrcov m (by omega) hm
    exact ⟨r, hr1, hr2, hr3⟩
  · intro r hr
    exact ⟨(hrruns r hr).2.1, (hrruns r hr).2.2.1, (hrruns r hr).2.2.2⟩

/-- C7 witness: the input [2, 1, 3] with block size 1 (so the block pass
changes nothing) is split into the runs (0, 1) and (1, 3). -/
theorem C7_witness :
    (2 ≤ ([2, 1, 3] : List Int).length) ∧
    (([(0, 1), (1, 3)] : List (Nat × Nat)) ≠ [] ∧
      (([(0, 1), (1, 3)] : List (Nat × Nat)).headD (0, 0)).1 = 0 ∧
      (([(0, 1), (1, 3)] : List (Nat × Nat)).getLastD (0, 0)).2 =
        ([2, 1, 3] : List Int).length ∧
      List.Chain' (fun r s => r.2 = s.1) ([(0, 1), (1, 3)] : List (Nat × Nat)) ∧
      List.Pairwise (fun r s => r.2 ≤ s.1) ([(0, 1), (1, 3)] : List (Nat × Nat)) ∧
      (∀ m, m < ([2, 1, 3] : List Int).length →
        ∃ r ∈ ([(0, 1), (1, 3)] : List (Nat × Nat)), r.1 ≤ m ∧ m < r.2) ∧
      (∀ r ∈ ([(0, 1), (1, 3)] : List (Nat × Nat)),
        r.1 < r.2 ∧ r.2 ≤ ([2, 1, 3] : List Int).length ∧
        ∀ j, r.1 ≤ j → j + 1 < r.2 →
          ([2, 1, 3] : List Int).getD j 0 ≤ ([2, 1, 3] : List Int).getD (j + 1) 0)) :=
  ⟨by decide,
    C7_runs_partition [2, 1, 3] 1 (by decide) [2, 1, 3] (by rfl)
      [(0, 1), (1, 3)] (by rfl)⟩

/-- C8: neither sort ever performs an out-of-bounds access (the checked
model never returns none), and inputs of length at most 1 are handled by the
explicit early-return guard, returning the input itself. -/
theorem C8_no_out_of_bounds (arr : List Int) :
    (∃ o1, adaptive_block_sort arr = some o1) ∧
    (∃ o2, optimized_adaptive_block_sort arr = some o2) ∧
    (arr.length ≤ 1 → adaptive_block_sort arr = some arr ∧
      optimized_adaptive_block_sort arr = some arr) := by
  obtain ⟨o1, h1, _, _⟩ := abs_spec_full arr
  obtain ⟨o2, h2, _⟩ := oabs_spec_total arr
  refine ⟨⟨o1, h1⟩, ⟨o2, h2⟩, ?_⟩
  intro hn
  constructor
  · unfold adaptive_block_sort
    rw [if_pos hn]
  · unfold optimized_adaptive_block_sort
    rw [if_pos hn]

/-- C8 witness: the empty list. -/
theorem C8_witness :
    (∃ o1, adaptive_block_sort ([] : List Int) = some o1) ∧
    (∃ o2, optimized_adaptive_block_sort ([] : List Int) = some o2) ∧
    (([] : List Int).length ≤ 1 →
      adaptive_block_sort ([] : List Int) = some [] ∧
      optimized_adaptive_block_sort ([] : List Int) = some []) :=
  C8_no_out_of_bounds []

/-- C9 counterexample: at length 81 the block size chosen by
optimized_adaptive_block_sort is max(8, int(sqrt(81)/2)*2) = 8, not
max(8, floor(sqrt(81))) = 9 as the claim states. -/
theorem C9_counterexample :
    oabsBlockSize 81 = 8 ∧ specBlockSize 8 81 = 9 ∧
    oabsBlockSize 81 ≠ specBlockSize 8 81 := by
  refine ⟨?_, ?_, ?_⟩ <;> decide

/-- C9 amended: for every n ≥ 2, adaptive_block_sort's block size is
max(32, floor(sqrt n)) as claimed; optimized_adaptive_block_sort's block
size is max(8, floor(sqrt n) rounded down to even), which agrees with the
claimed max(8, floor(sqrt n)) exactly when floor(sqrt n) is at most 8 or
even; both block sizes are at least 1. -/
theorem C9_block_size_amended (n : Nat) (h2 : 2 ≤ n) :
    absBlockSize n = specBlockSize 32 n ∧
    oabsBlockSize n = max 8 (isqrt n / 2 * 2) ∧
    1 ≤ absBlockSize n ∧ 1 ≤ oabsBlockSize n ∧
    (oabsBlockSize n = specBlockSize 8 n ↔ isqrt n ≤ 8 ∨ isqrt n % 2 = 0) := by
  refine ⟨rfl, rfl, ?_, ?_, ?_⟩
  · unfold absBlockSize
    omega
  · unfold oabsBlockSize
    omega
  · unfold oabsBlockSize specBlockSize
    rw [Nat.max_def, Nat.max_def]
    constructor
    · intro h
      split at h <;> split at h <;> omega
    · intro h
      split <;> split <;> omega

/-- C9 witness: n = 2. -/
theorem C9_witness :
    2 ≤ 2 ∧
    (absBlockSize 2 = specBlockSize 32 2 ∧
      oabsBlockSize 2 = max 8 (isqrt 2 / 2 * 2) ∧
      1 ≤ absBlockSize 2 ∧ 1 ≤ oabsBlockSize 2 ∧
      (oabsBlockSize 2 = specBlockSize 8 2 ↔ isqrt 2 ≤ 8 ∨ isqrt 2 % 2 = 0)) :=
  ⟨by decide, C9_block_size_amended 2 (by decide)⟩

/-- C10: on every input that reaches the merge phase of
optimized_adaptive_block_sort, write_index equals n when the merge loop
exits, so the final adjustment loop iterates over the empty range
range(n, n): the repair pass is dead code and never modifies the array. -/
theorem C10_cleanup_dead (arr : List Int) (h2 : 2 ≤ arr.length)
    (arr1 : List Int)
    (hbp : blockPass arr (oabsBlockSize arr.length) = some arr1)
    (runs : List (Nat × Nat))
    (hdr : detectRuns arr1 (arr.length + 1) 0 = some runs)
    (hfast : ¬(runs.length = 1 ∧ runs.getD 0 (0, 0) = (0, arr.length))) :
    ∃ arr2, oabsMergePhase arr1 runs = some (arr2, arr1.length) ∧
      cleanupPass arr2 arr1.length = some arr2 ∧
      List.range' arr1.length (arr2.length - arr1.length) = [] := by
  obtain ⟨arr1x, hbpx, hblx, _⟩ := blockPass_spec arr (oabsBlockSize arr.length)
  rw [hbp] at hbpx
  obtain rfl : arr1 = arr1x := Option.some.inj hbpx
  obtain ⟨rs, hdrx, hrnil, hrne, hrchain, hrruns, hrcov, hrflat⟩ :=
    detectRuns_spec arr1 (arr.length + 1) 0 (by omega) (by omega)
  rw [hdr] at hdrx
  obtain rfl : runs = rs := Option.some.inj hdrx
  rw [List.drop_zero] at hrflat
  obtain ⟨arr2, hmp, hlen2⟩ := oabsMergePhase_spec arr1 runs
    (fun r hr => ⟨(hrruns r hr).2.1, (hrruns r hr).2.2.1⟩) hrflat
  refine ⟨arr2, hmp, ?_, ?_⟩
  · rw [← hlen2]
    exact cleanupPass_at_end arr2
  · rw [hlen2, Nat.sub_self]
    rfl

/-- C10 witness: the repository's own test input (its merge phase is
reached: run detection finds two runs). -/
theorem C10_witness :
    2 ≤ ([64, 34, 25, 12, 22, 11, 90, 12, 45, 33] : List Int).length ∧
    (∃ arr2, oabsMergePhase [11, 12, 12, 22, 25, 34, 64, 90, 33, 45]
        [(0, 8), (8, 10)] =
        some (arr2, ([11, 12, 12, 22, 25, 34, 64, 90, 33, 45] : List Int).length) ∧
      cleanupPass arr2 ([11, 12, 12, 22, 25, 34, 64, 90, 33, 45] : List Int).length =
        some arr2 ∧
      List.range' ([11, 12, 12, 22, 25, 34, 64, 90, 33, 45] : List Int).length
        (arr2.length -
          ([11, 12, 12, 22, 25, 34, 64, 90, 33, 45] : List Int).length) = []) :=
  ⟨by decide,
    C10_cleanup_dead [64, 34, 25, 12, 22, 11, 90, 12, 45, 33] (by decide)
      [11, 12, 12, 22, 25, 34, 64, 90, 33, 45] (by rfl)
      [(0, 8), (8, 10)] (by rfl) (by decide)⟩

end ABS

